import Mathlib

/-!
# Verification of the maneuver-core fountain transfer engine

A shallow embedding of the QR-code fountain (Luby-transform style) data
transfer core described in the repository documentation, together with the
CSV-export object flattening utility, and proofs of the specified
properties.

The fountain engine itself (generator, scanner, codec, decoder) is not
present in the repository sources, only its documentation; the definitions
below are therefore modelled from the specification, faithful to its
words, as noted on each definition.  `flattenObject` is translated from
the TypeScript snippet in the JSON data-transfer documentation.

Bytes are modelled as `Nat` (values < 256 in practice; all operations used
are bitwise XOR, which is size-preserving, so no modular truncation is
needed).  Byte buffers are `List Nat`.
-/

namespace Maneuver

/-- Modelled from the spec: fixed source-block size (policy constant,
"Block Size: 200 bytes"). -/
def BLOCK_SIZE : Nat := 200

/-- Modelled from the spec: minimum payload size for fountain coding
(`MIN_FOUNTAIN_SIZE_COMPRESSED = 50`). -/
def MIN_FOUNTAIN_SIZE : Nat := 50

/-- Ceiling division on naturals. -/
def ceilDiv (a b : Nat) : Nat := (a + b - 1) / b

/-- Pointwise XOR of two byte buffers. -/
def zipXor (a b : List Nat) : List Nat := List.zipWith Nat.xor a b

/-- The all-zero block. -/
def zeros : List Nat := List.replicate BLOCK_SIZE 0

/-- Modelled from the spec: the IntegrityVerifier checksum — a
deterministic, order-sensitive whole-payload digest (any hash with
negligible collision probability is acceptable per the spec; a 32-bit
polynomial rolling hash is used here). -/
def checksumOf (bytes : List Nat) : Nat :=
  bytes.foldl (fun h b => (h * 31 + b) % 4294967296) 5381

/-- Modelled from the spec: `verify(bytes, expected) → boolean`. -/
def verify (bytes : List Nat) (expected : Nat) : Bool :=
  checksumOf bytes == expected

/-- Modelled from the spec: the RedundancyPlanner.
`redundancyFactor = 1.5` when `k < 20`, `1.3` when `k ≥ 20`;
`totalPackets = ceil(k * redundancyFactor)`, minimum `k + 1`. -/
def planCount (k : Nat) : Nat :=
  if k < 20 then max ((3 * k + 1) / 2) (k + 1)
  else max ((13 * k + 9) / 10) (k + 1)

/-- Error taxonomy of the core (the cases relevant to the verified
claims). -/
inductive CoreError where
  | payloadTooSmall
  | malformedPacket
deriving DecidableEq

/-- One step of the block splitter: take a `BLOCK_SIZE` chunk, zero-pad
it if short, and recurse on the rest.  Fuel-indexed so that it is
structurally recursive (the fuel is always instantiated with the payload
length, which dominates the recursion depth). -/
def splitChunksGo : Nat → List Nat → List (List Nat)
  | 0, _ => []
  | _ + 1, [] => []
  | fuel + 1, b :: rest =>
    ((b :: rest).take BLOCK_SIZE ++
      List.replicate (BLOCK_SIZE - (b :: rest).length) 0) ::
      splitChunksGo fuel ((b :: rest).drop BLOCK_SIZE)

/-- Modelled from the spec: the BlockSplitter's partition of a payload
into `k = ceil(totalBytes / blockSize)` blocks of exactly `BLOCK_SIZE`
bytes, the final block right-padded with zero bytes. -/
def splitChunks (payload : List Nat) : List (List Nat) :=
  splitChunksGo payload.length payload

/-- Modelled from the spec: BlockSplitter entry point; fails with
`PayloadTooSmall` below the minimum threshold. -/
def splitBlocks (payload : List Nat) : Except CoreError (List (List Nat)) :=
  if payload.length < MIN_FOUNTAIN_SIZE then .error .payloadTooSmall
  else .ok (splitChunks payload)

/-! ## DegreeSampler

Modelled from the spec: a deterministic seeded sampler. The PRNG is a
32-bit linear congruential generator; the seed is derived from the packet
id. The degree distribution gives degree 1 a fixed elevated probability
(2/10) and spreads the remaining mass over degrees `2..k` with weight
inversely proportional to the degree; indices are then drawn distinct,
without replacement, from `[0, k)`. -/
/-- 32-bit linear congruential generator step. -/
def lcg (s : Nat) : Nat := (1664525 * s + 1013904223) % 4294967296

/-- Modelled from the spec: the explicit seed derived from `packetId`. -/
def seed0 (pid : Nat) : Nat := (2654435761 * (pid + 1)) % 4294967296

/-- Weight numerator base for the `1/d` degree weights. -/
def WBASE : Nat := 3628800

/-- Total weight of degrees `2..k`. -/
def solTotal (k : Nat) : Nat :=
  ((List.range (k - 1)).map (fun j => WBASE / (j + 2))).sum

/-- Cumulative scan through the `1/d` weight table: starting at degree
`d` with `steps` further degrees available, return the degree selected by
the residual draw `r`. -/
def scanPick : Nat → Nat → Nat → Nat
  | 0, d, _ => d
  | steps + 1, d, r => if r < WBASE / d then d else scanPick steps (d + 1) (r - WBASE / d)

/-- Modelled from the spec: sample a degree `d ∈ [1, k]`; degree 1 with
elevated probability, otherwise from the `1/d`-weighted table over
`2..k`. Returns the degree and the advanced PRNG state. -/
def sampleDegree (s k : Nat) : Nat × Nat :=
  if k ≤ 1 then (1, lcg s)
  else if lcg s % 10 < 2 then (1, lcg s)
  else (scanPick (k - 2) 2 (lcg (lcg s) % solTotal k), lcg (lcg s))

/-- Modelled from the spec: draw `d` distinct indices without replacement
from the remaining pool. -/
def sampleIndices : Nat → Nat → List Nat → List Nat × Nat
  | s, 0, _ => ([], s)
  | s, _ + 1, [] => ([], s)
  | s, d + 1, x :: rem =>
    let s1 := lcg s
    let j := s1 % (x :: rem).length
    let picked := (x :: rem).getD j 0
    let res := sampleIndices s1 d ((x :: rem).eraseIdx j)
    (picked :: res.1, res.2)

/-- Modelled from the spec: the `(d, indices)` sample for a packet,
seeded on the packet id so the result is reproducible. -/
def packetIndices (pid k : Nat) : List Nat :=
  let st := seed0 pid
  let dg := sampleDegree st k
  (sampleIndices dg.2 dg.1 (List.range k)).1

/-! ## Encoder, Session and Packet -/
/-- Modelled from the spec: Session metadata, immutable once encoding
starts. -/
structure Session where
  sessionId : String
  k : Nat
  totalBytes : Nat
  blockSize : Nat
  checksum : Nat
deriving DecidableEq

/-- Modelled from the spec: the session created for one encode
invocation (`k = ceil(totalBytes / blockSize)`). -/
def mkSession (sid : String) (payload : List Nat) : Session :=
  ⟨sid, ceilDiv payload.length BLOCK_SIZE, payload.length, BLOCK_SIZE,
    checksumOf payload⟩

/-- Modelled from the spec: one fountain-coded packet (the wire fields of
`FountainPacket`). -/
structure Packet where
  sessionId : String
  packetId : Nat
  k : Nat
  totalBytes : Nat
  checksum : Nat
  indices : List Nat
  data : List Nat
deriving DecidableEq

/-- Modelled from the spec: `encode(blocks, packetId) → Packet` — sample
`(d, indices)` via the DegreeSampler seeded on `packetId`, XOR the
selected source blocks together, and package with session metadata. -/
def encode (sess : Session) (blocks : List (List Nat)) (pid : Nat) : Packet :=
  let idxs := packetIndices pid blocks.length
  { sessionId := sess.sessionId, packetId := pid, k := sess.k,
    totalBytes := sess.totalBytes, checksum := sess.checksum,
    indices := idxs,
    data := idxs.foldr (fun i acc => zipXor (blocks.getD i zeros) acc) zeros }

/-- Modelled from the spec: the sender's full packet sequence — the
`planCount(k)` packets with ids `0, 1, …`. -/
def packetsFor (sid : String) (payload : List Nat) : List Packet :=
  (List.range (planCount (splitChunks payload).length)).map
    (encode (mkSession sid payload) (splitChunks payload))

/-! ## Index sets as bitmasks

The decoder tracks each equation's index set as a bitmask over `Nat`
(bit `i` set iff source block `i` participates); combining two equations
is then bitwise XOR of masks together with pointwise XOR of data. -/
/-- The bitmask of an index list. -/
def maskOf (idxs : List Nat) : Nat := idxs.foldr (fun i m => m ||| (1 <<< i)) 0

/-- The bitmask of a packet's index set. -/
def pMask (p : Packet) : Nat := maskOf p.indices

/-- XOR of the blocks selected by a bitmask (the linear-combination value
an equation with that mask should carry). -/
def xorMaskGo : List (List Nat) → Nat → List Nat
  | [], _ => zeros
  | b :: bs, m => if m.testBit 0 then zipXor b (xorMaskGo bs (m >>> 1)) else xorMaskGo bs (m >>> 1)

/-! ## Decoder

Modelled from the spec (§4.6): incremental peeling with cascade, plus a
Gaussian-elimination pass over the pending system when peeling stalls.
Every equation is a pair `(mask, data)`; `resolved` maps block indices to
recovered blocks; blocks only ever move from unknown to resolved. -/
/-- Modelled from the spec: the receiver-side mutable decode state, owned
by one Decoder instance per session. -/
structure DecoderState where
  sessionId : String
  k : Nat
  totalBytes : Nat
  checksum : Nat
  resolved : List (Nat × List Nat)
  pending : List (Nat × List Nat)
  receivedPacketIds : List Nat
deriving DecidableEq

/-- Look up a resolved block by index. -/
def lookupResolved : List (Nat × List Nat) → Nat → Option (List Nat)
  | [], _ => none
  | (j, b) :: rest, i => if j = i then some b else lookupResolved rest i

/-- Fuel-indexed base-2 logarithm (structurally recursive, so that it
evaluates by kernel reduction). -/
def log2Go : Nat → Nat → Nat
  | 0, _ => 0
  | fuel + 1, n => if n ≤ 1 then 0 else log2Go fuel (n / 2) + 1

/-- Base-2 logarithm: position of the leading bit of a nonzero number. -/
def log2s (n : Nat) : Nat := log2Go n n

/-- Modelled from the spec: peeling reduction of one equation — remove
every index already resolved, XORing its known block out of the data. -/
def reduceBy (resolved : List (Nat × List Nat)) (e : Nat × List Nat) :
    Nat × List Nat :=
  resolved.foldl
    (fun acc rb =>
      if acc.1.testBit rb.1 then (acc.1 ^^^ (1 <<< rb.1), zipXor acc.2 rb.2)
      else acc) e

/-- Modelled from the spec: the peel/cascade loop. Work items are taken
from `queue`; a reduced equation that becomes empty is dropped, a
degree-1 equation resolves its block and re-queues all pending equations
(the belief-propagation cascade), anything else is stored in `pending`.
Fuel-indexed for structural termination; the caller supplies enough fuel
for the cascade to run to quiescence. -/
def peelLoop : Nat → List (Nat × List Nat) → List (Nat × List Nat) →
    List (Nat × List Nat) → List (Nat × List Nat) × List (Nat × List Nat)
  | 0, resolved, pending, queue => (resolved, pending ++ queue)
  | fuel + 1, resolved, pending, queue =>
    match queue with
    | [] => (resolved, pending)
    | e :: rest =>
      if (reduceBy resolved e).1 = 0 then peelLoop fuel resolved pending rest
      else if (reduceBy resolved e).1 = 1 <<< log2s (reduceBy resolved e).1 then
        if (lookupResolved resolved (log2s (reduceBy resolved e).1)).isSome then
          peelLoop fuel resolved pending rest
        else
          peelLoop fuel
            ((log2s (reduceBy resolved e).1, (reduceBy resolved e).2) :: resolved)
            [] (pending ++ rest)
      else peelLoop fuel resolved (pending ++ [reduceBy resolved e]) rest

/-- Reduce an equation against the rows of an echelon basis (GF(2) row
reduction by leading bits). -/
def gaussReduce (basis : List (Nat × List Nat)) (e : Nat × List Nat) :
    Nat × List Nat :=
  basis.foldl
    (fun acc row =>
      if acc.1.testBit (log2s row.1) then (acc.1 ^^^ row.1, zipXor acc.2 row.2)
      else acc) e

/-- Modelled from the spec: the Gaussian-elimination fallback — row-reduce
the pending system over GF(2); rows that cancel completely are dropped. -/
def gaussRows : List (Nat × List Nat) → List (Nat × List Nat) →
    List (Nat × List Nat)
  | basis, [] => basis
  | basis, e :: rest =>
    if (gaussReduce basis e).1 = 0 then gaussRows basis rest
    else gaussRows (basis ++ [gaussReduce basis e]) rest

/-- Fuel budget for one `addPacket` call: ample for every cascade (each
resolution can re-queue at most the whole pending system, and at most
`k` resolutions happen). -/
def decodeFuel (s : DecoderState) : Nat := (s.k + 2) * (s.pending.length + 3)

/-- One packet's worth of solving: peel the new equation (with cascade),
then run elimination on the stalled pending system and peel again. -/
def solveStep (s : DecoderState) (m : Nat) (d : List Nat) :
    List (Nat × List Nat) × List (Nat × List Nat) :=
  peelLoop (decodeFuel s)
    (peelLoop (decodeFuel s) s.resolved s.pending [(m, d)]).1 []
    (gaussRows [] (peelLoop (decodeFuel s) s.resolved s.pending [(m, d)]).2)

/-- Modelled from the spec: `addPacket` — drop foreign-session or
conflicting packets silently, drop duplicate packet ids, otherwise reduce
the packet and solve. -/
def addPacket (s : DecoderState) (p : Packet) : DecoderState :=
  if p.sessionId ≠ s.sessionId ∨ p.k ≠ s.k ∨ p.totalBytes ≠ s.totalBytes ∨
      p.checksum ≠ s.checksum then s
  else if p.packetId ∈ s.receivedPacketIds then s
  else
    { sessionId := s.sessionId, k := s.k, totalBytes := s.totalBytes,
      checksum := s.checksum,
      resolved := (solveStep s (pMask p) p.data).1,
      pending := (solveStep s (pMask p) p.data).2,
      receivedPacketIds := p.packetId :: s.receivedPacketIds }

/-- Feed a sequence of packets to the decoder, in order. -/
def feed (s : DecoderState) (ps : List Packet) : DecoderState :=
  ps.foldl addPacket s

/-- Modelled from the spec: a fresh Decoder for a session. -/
def initDecoder (sess : Session) : DecoderState :=
  ⟨sess.sessionId, sess.k, sess.totalBytes, sess.checksum, [], [], []⟩

/-- Modelled from the spec: `isComplete` is true when `|resolved| = k`. -/
def isComplete (s : DecoderState) : Bool := s.resolved.length == s.k

/-- Modelled from the spec: progress counter. -/
def resolvedCount (s : DecoderState) : Nat := s.resolved.length

/-- Modelled from the spec: reconstruct the buffer by concatenating
`resolved[0..k-1]` in index order and truncating to `totalBytes`. -/
def reconstruct (s : DecoderState) : List Nat :=
  (((List.range s.k).map (fun i => (lookupResolved s.resolved i).getD zeros)).flatten).take
    s.totalBytes

/-- What the consumer of decoded bytes receives: the reconstructed bytes
and the independent integrity flag. -/
structure DecodeOutput where
  bytes : List Nat
  checksumOk : Bool
deriving DecidableEq

/-- Modelled from the spec: on full reconstruction the Decoder returns
the bytes together with the checksum-verification boolean; the bytes are
returned whether or not verification succeeded. -/
def getResult (s : DecoderState) : Option DecodeOutput :=
  if isComplete s then some ⟨reconstruct s, verify (reconstruct s) s.checksum⟩
  else none

/-- An equation-wise invariant over the decoder state: `P mask data`
holds for every resolved block (seen as the singleton equation
`(2^i, block)`) and every pending equation. -/
def EqInv (P : Nat → List Nat → Prop) (s : DecoderState) : Prop :=
  (∀ rb ∈ s.resolved, P (1 <<< rb.1) rb.2) ∧ ∀ e ∈ s.pending, P e.1 e.2

/-! ## PacketCodec

Modelled from the spec (§4.5): the transport record carries
`{sessionId, packetId, k, totalBytes, checksum, indices, data}`;
deserialisation validates structure, index range, data length and
consistency with previously-seen session constants. -/
/-- A raw transport record, with every field possibly missing (a missing
field models a structurally invalid envelope). -/
structure RawPacket where
  sessionId : Option String
  packetId : Option Nat
  k : Option Nat
  totalBytes : Option Nat
  checksum : Option Nat
  indices : Option (List Nat)
  data : Option (List Nat)
deriving DecidableEq

/-- Modelled from the spec: serialize a Packet to the transport record. -/
def serialize (p : Packet) : RawPacket :=
  ⟨some p.sessionId, some p.packetId, some p.k, some p.totalBytes,
    some p.checksum, some p.indices, some p.data⟩

/-- The session constants `(k, checksum)` previously seen for a session
id, if any. -/
def lookupSeen : List (String × Nat × Nat) → String → Option (Nat × Nat)
  | [], _ => none
  | (sid, kc) :: rest, s => if sid = s then some kc else lookupSeen rest s

/-- Modelled from the spec: `deserialize(raw) → Packet | MalformedPacket`
— fails if the structure is invalid, `indices` is empty or out of
`[0, k)` range, the data length is not one block, or the declared
`k`/`checksum` conflicts with a previously seen value for the same
session. -/
def deserialize (raw : RawPacket) (seen : List (String × Nat × Nat)) :
    Except CoreError Packet :=
  match raw.sessionId, raw.packetId, raw.k, raw.totalBytes, raw.checksum,
      raw.indices, raw.data with
  | some sid, some pid, some k, some tb, some cs, some idxs, some d =>
    if idxs.isEmpty then .error .malformedPacket
    else if idxs.any (fun i => k ≤ i) then .error .malformedPacket
    else if d.length ≠ BLOCK_SIZE then .error .malformedPacket
    else
      match lookupSeen seen sid with
      | some kc =>
        if k ≠ kc.1 ∨ cs ≠ kc.2 then .error .malformedPacket
        else .ok ⟨sid, pid, k, tb, cs, idxs, d⟩
      | none => .ok ⟨sid, pid, k, tb, cs, idxs, d⟩
  | _, _, _, _, _, _, _ => .error .malformedPacket

/-- Spec-side condition: the envelope structure is invalid (a required
field is missing). -/
def structureInvalid (raw : RawPacket) : Prop :=
  raw.sessionId = none ∨ raw.packetId = none ∨ raw.k = none ∨
  raw.totalBytes = none ∨ raw.checksum = none ∨ raw.indices = none ∨
  raw.data = none

/-- Spec-side condition: `indices` empty or containing a value outside
`[0, k)`. -/
def indicesInvalid (raw : RawPacket) : Prop :=
  ∃ idxs k, raw.indices = some idxs ∧ raw.k = some k ∧
    (idxs = [] ∨ ∃ i ∈ idxs, k ≤ i)

/-- Spec-side condition: data length differs from the block size. -/
def dataInvalid (raw : RawPacket) : Prop :=
  ∃ d, raw.data = some d ∧ d.length ≠ BLOCK_SIZE

/-- Spec-side condition: declared `k` or `checksum` conflicts with a
previously seen value for the same session id. -/
def sessionConflict (raw : RawPacket) (seen : List (String × Nat × Nat)) : Prop :=
  ∃ sid k cs kc, raw.sessionId = some sid ∧ raw.k = some k ∧
    raw.checksum = some cs ∧ lookupSeen seen sid = some kc ∧
    (k ≠ kc.1 ∨ cs ≠ kc.2)

/-! ## GF(2) span and rank of a mask system

Used to state rank-deficiency: the span of a list of masks under XOR,
and the rank computed by Gaussian elimination over the leading bits. -/
/-- The XOR-span of a list of masks, as a finite set. -/
def spanF : List Nat → Finset Nat
  | [] => {0}
  | a :: L => spanF L ∪ (spanF L).image (a ^^^ ·)

/-- Reduce a mask by an echelon basis (XOR out rows whose leading bit is
set in the mask; the basis is kept sorted by decreasing leading bit, so
one pass fully reduces). -/
def rankReduce (basis : List Nat) (m : Nat) : Nat :=
  basis.foldl (fun acc r => if acc.testBit (log2s r) then acc ^^^ r else acc) m

/-- Insert a row into an echelon basis, keeping leading bits in
decreasing order. -/
def insertRow (m : Nat) : List Nat → List Nat
  | [] => [m]
  | r :: rest => if log2s r ≤ log2s m then m :: r :: rest else r :: insertRow m rest

/-- Gaussian elimination over GF(2): fold the masks into an independent
echelon basis, dropping rows that cancel to zero. -/
def gaussMasks : List Nat → List Nat → List Nat
  | basis, [] => basis
  | basis, m :: rest =>
    if rankReduce basis m = 0 then gaussMasks basis rest
    else gaussMasks (insertRow (rankReduce basis m) basis) rest

/-- The GF(2) rank of a list of masks: the number of linearly independent
equations among them. -/
def rankMasks (L : List Nat) : Nat := (gaussMasks [] L).length

/-! ## Recursive object flattening (CSV export utility)

Translated from the TypeScript `flattenObject` in the JSON data-transfer
documentation: walk the object's keys in order; a non-null, non-array
object value is flattened recursively under the dot-joined key, anything
else is written to the output record at its dot-joined key. -/
mutual
/-- A JSON-like value.  Arrays and objects carry their own spine so that
the family is mutually (not nestedly) inductive, keeping structural
recursion and kernel evaluation available. -/
inductive JValue where
  | null
  | bool (b : Bool)
  | num (n : Int)
  | str (s : String)
  | arr (elems : JArr)
  | obj (fields : JObj)
inductive JArr where
  | nil
  | cons (hd : JValue) (tl : JArr)
inductive JObj where
  | nil
  | cons (key : String) (val : JValue) (tl : JObj)
end

/-- The dot-joined key: `prefix ? prefix.key : key`. -/
def dotKey (pre key : String) : String :=
  if pre = "" then key else pre ++ "." ++ key

/-- JavaScript record assignment `r[key] = v`: overwrite in place if the
key exists, else append. -/
def assign (r : List (String × JValue)) (key : String) (v : JValue) :
    List (String × JValue) :=
  if r.any (fun e => e.1 == key) then
    r.map (fun e => if e.1 == key then (key, v) else e)
  else r ++ [(key, v)]

/-- `Object.assign(r, …)`: assign every entry of `es` into `r` in
order. -/
def assignAll (r : List (String × JValue)) (es : List (String × JValue)) :
    List (String × JValue) :=
  es.foldl (fun acc e => assign acc e.1 e.2) r

/-- The body of `flattenObject`: fold the keys in order into the
accumulated record; a value that is a plain object (not null, not an
array) is flattened recursively into a fresh record that is then
`Object.assign`-ed in, anything else is assigned at its dot-joined
key. -/
def flattenInto : JObj → String → List (String × JValue) →
    List (String × JValue)
  | .nil, _, acc => acc
  | .cons key (JValue.obj sub) rest, pre, acc =>
    flattenInto rest pre (assignAll acc (flattenInto sub (dotKey pre key) []))
  | .cons key v rest, pre, acc => flattenInto rest pre (assign acc (dotKey pre key) v)

/-- `flattenObject(obj, prefix)` from the documentation's TypeScript. -/
def flattenObject (fields : JObj) (pre : String) : List (String × JValue) :=
  flattenInto fields pre []

/-- Spec-side definition: the `(dot-joined path, leaf value)` pairs of an
object in traversal order — a leaf being any value that is null, an
array, or not an object. -/
def leafEntries : JObj → String → List (String × JValue)
  | .nil, _ => []
  | .cons key (JValue.obj sub) rest, pre =>
    leafEntries sub (dotKey pre key) ++ leafEntries rest pre
  | .cons key v rest, pre => (dotKey pre key, v) :: leafEntries rest pre

/-! ## Concrete inputs used by witnesses and counterexamples -/
/-- A 50-byte payload (the minimum fountain size): k = 1. -/
def pay50 : List Nat := List.replicate 50 3

/-- A 3600-byte payload: k = 18 — the block count at which the seeded
sampler's `planCount(18) = 27` packets are collectively rank-deficient. -/
def pay18 : List Nat := List.replicate 3600 1

/-- A session used in decoder witnesses. -/
def sessA : Session := ⟨"A", 2, 400, 200, 7⟩

/-- A valid degree-2 packet for `sessA`. -/
def packA : Packet := ⟨"A", 0, 2, 400, 7, [0, 1], zeros⟩

/-- A packet from a different session `"B"`. -/
def packB : Packet := ⟨"B", 1, 2, 400, 7, [0], zeros⟩

/-- A decoder state that is complete (k = 1) but whose stored checksum
does not match the reconstructed bytes. -/
def mismatchState : DecoderState := ⟨"A", 1, 2, 999, [(0, zeros)], [], [0]⟩

/-- A small decoder state with one resolved block, for the monotonicity
witness. -/
def monoState : DecoderState := ⟨"A", 2, 400, 7, [(0, zeros)], [], [5]⟩

/-- A degree-1 packet for block 1 of `monoState`'s session. -/
def packC : Packet := ⟨"A", 7, 2, 400, 7, [1], zeros⟩

/-- Structural size of an object tree (used as an induction measure). -/
def sizeJO : JObj → Nat
  | .nil => 0
  | .cons _ (JValue.obj sub) rest => 1 + sizeJO sub + sizeJO rest
  | .cons _ _ rest => 1 + sizeJO rest

/-- Blocks used by the encoder-purity witness. -/
def blocksW : List (List Nat) := [[1, 2], [3, 4]]

/-- A second session value (differing from `sessA`). -/
def sessB : Session := ⟨"B", 3, 600, 200, 9⟩

/-- The object `{a: {b: 1}, "a.b": 2}` whose two leaves share the
dot-joined path `a.b`. -/
def collideObj : JObj :=
  .cons "a" (JValue.obj (.cons "b" (JValue.num 1) .nil))
    (.cons "a.b" (JValue.num 2) .nil)

/-- A nested object with distinct leaf paths, for the flattening
witness: `{id: "x", auto: {startPosition: "left", coral: {scored: 3,
missed: 1}, empty: {}}, notes: [1, 2], flag: null}`. -/
def nestedObj : JObj :=
  .cons "id" (JValue.str "x")
    (.cons "auto" (JValue.obj
        (.cons "startPosition" (JValue.str "left")
          (.cons "coral" (JValue.obj
              (.cons "scored" (JValue.num 3) (.cons "missed" (JValue.num 1) .nil)))
            (.cons "empty" (JValue.obj .nil) .nil))))
      (.cons "notes" (JValue.arr (.cons (JValue.num 1) (.cons (JValue.num 2) .nil)))
        (.cons "flag" JValue.null .nil)))

theorem zipXor_length (a b : List Nat) :
    (zipXor a b).length = min a.length b.length := by
  simp [zipXor]

theorem zipXor_comm (a b : List Nat) : zipXor a b = zipXor b a := by
  induction a generalizing b with
  | nil => cases b <;> rfl
  | cons x xs ih =>
    cases b with
    | nil => rfl
    | cons y ys =>
      show (x ^^^ y) :: zipXor xs ys = (y ^^^ x) :: zipXor ys xs
      rw [Nat.xor_comm x y, ih ys]

theorem zipXor_assoc (a b c : List Nat) :
    zipXor (zipXor a b) c = zipXor a (zipXor b c) := by
  induction a generalizing b c with
  | nil => cases b <;> cases c <;> rfl
  | cons x xs ih =>
    cases b with
    | nil => rfl
    | cons y ys =>
      cases c with
      | nil => rfl
      | cons z zs =>
        show ((x ^^^ y) ^^^ z) :: zipXor (zipXor xs ys) zs
          = (x ^^^ (y ^^^ z)) :: zipXor xs (zipXor ys zs)
        rw [Nat.xor_assoc, ih ys zs]

theorem zipXor_self_cancel (a b : List Nat) (h : a.length = b.length) :
    zipXor a (zipXor a b) = b := by
  induction a generalizing b with
  | nil =>
    cases b with
    | nil => rfl
    | cons y ys => simp at h
  | cons x xs ih =>
    cases b with
    | nil => simp at h
    | cons y ys =>
      simp only [List.length_cons, Nat.succ.injEq] at h
      show (x ^^^ (x ^^^ y)) :: zipXor xs (zipXor xs ys) = y :: ys
      rw [← Nat.xor_assoc, Nat.xor_self, Nat.zero_xor, ih ys h]

theorem zipXor_replicate_zero_right (a : List Nat) :
    zipXor a (List.replicate a.length 0) = a := by
  induction a with
  | nil => rfl
  | cons x xs ih =>
    show (x ^^^ 0) :: zipXor xs (List.replicate xs.length 0) = x :: xs
    rw [Nat.xor_zero, ih]

theorem zipXor_zeros_right (a : List Nat) (h : a.length = BLOCK_SIZE) :
    zipXor a zeros = a := by
  have := zipXor_replicate_zero_right a
  rwa [h] at this

theorem zipXor_zeros_left (a : List Nat) (h : a.length = BLOCK_SIZE) :
    zipXor zeros a = a := by
  rw [zipXor_comm]; exact zipXor_zeros_right a h

theorem splitChunksGo_nil (fuel : Nat) : splitChunksGo fuel [] = [] := by
  cases fuel <;> rfl

theorem splitChunksGo_spec (fuel : Nat) :
    ∀ p : List Nat, p.length ≤ fuel →
      (splitChunksGo fuel p).length = ceilDiv p.length BLOCK_SIZE ∧
      (∀ b ∈ splitChunksGo fuel p, b.length = BLOCK_SIZE) ∧
      (splitChunksGo fuel p).flatten =
        p ++ List.replicate
          (BLOCK_SIZE * (splitChunksGo fuel p).length - p.length) 0 := by
  induction fuel with
  | zero =>
    intro p hp
    have : p = [] := List.eq_nil_of_length_eq_zero (Nat.le_zero.mp hp)
    subst this
    simp [splitChunksGo, ceilDiv, BLOCK_SIZE]
  | succ fuel ih =>
    intro p hp
    cases p with
    | nil => simp [splitChunksGo, ceilDiv, BLOCK_SIZE]
    | cons b rest =>
      simp only [List.length_cons] at hp
      have hB : BLOCK_SIZE = 200 := rfl
      have hdrop : ((b :: rest).drop BLOCK_SIZE).length ≤ fuel := by
        simp only [List.length_drop, List.length_cons, hB]
        omega
      obtain ⟨ihLen, ihEach, ihFlat⟩ := ih ((b :: rest).drop BLOCK_SIZE) hdrop
      have hLstep : (splitChunksGo (fuel + 1) (b :: rest)).length =
          (splitChunksGo fuel ((b :: rest).drop BLOCK_SIZE)).length + 1 := by
        simp [splitChunksGo]
      refine ⟨?_, ?_, ?_⟩
      · rw [hLstep, ihLen]
        simp only [List.length_drop, List.length_cons, ceilDiv, hB]
        omega
      · intro blk hblk
        simp only [splitChunksGo, List.mem_cons] at hblk
        rcases hblk with h | h
        · subst h
          simp only [List.length_append, List.length_take, List.length_replicate,
            List.length_cons, hB]
          omega
        · exact ihEach blk h
      · have hFstep : (splitChunksGo (fuel + 1) (b :: rest)).flatten =
            ((b :: rest).take BLOCK_SIZE ++
              List.replicate (BLOCK_SIZE - (b :: rest).length) 0) ++
            (splitChunksGo fuel ((b :: rest).drop BLOCK_SIZE)).flatten := by
          simp [splitChunksGo]
        rw [hFstep, ihFlat, hLstep]
        by_cases hsmall : (b :: rest).length ≤ BLOCK_SIZE
        · have hdropNil : (b :: rest).drop BLOCK_SIZE = [] := by
            apply List.eq_nil_of_length_eq_zero
            simp only [List.length_drop, List.length_cons, hB]
            simp only [List.length_cons, hB] at hsmall
            omega
          have htake : (b :: rest).take BLOCK_SIZE = b :: rest :=
            List.take_of_length_le hsmall
          rw [hdropNil, splitChunksGo_nil, htake]
          simp only [List.length_nil, List.nil_append, List.append_assoc,
            Nat.mul_zero, Nat.zero_sub, Nat.sub_zero, List.replicate_zero,
            List.append_nil, Nat.zero_add, Nat.mul_one]
        · push_neg at hsmall
          have hpadNil : List.replicate (BLOCK_SIZE - (b :: rest).length) 0 = [] := by
            have h0 : BLOCK_SIZE - (b :: rest).length = 0 := by
              simp only [List.length_cons, hB] at hsmall ⊢
              omega
            rw [h0]; rfl
          rw [hpadNil, List.append_nil, ← List.append_assoc, List.take_append_drop]
          congr 2
          simp only [List.length_drop, List.length_cons, hB] at hsmall ⊢
          omega

theorem splitChunks_length (payload : List Nat) :
    (splitChunks payload).length = ceilDiv payload.length BLOCK_SIZE :=
  (splitChunksGo_spec payload.length payload (Nat.le_refl _)).1

theorem splitChunks_each (payload : List Nat) :
    ∀ b ∈ splitChunks payload, b.length = BLOCK_SIZE :=
  (splitChunksGo_spec payload.length payload (Nat.le_refl _)).2.1

theorem splitChunks_flatten (payload : List Nat) :
    (splitChunks payload).flatten =
      payload ++ List.replicate
        (BLOCK_SIZE * (splitChunks payload).length - payload.length) 0 :=
  (splitChunksGo_spec payload.length payload (Nat.le_refl _)).2.2

theorem splitChunks_take (payload : List Nat) :
    (splitChunks payload).flatten.take payload.length = payload := by
  rw [splitChunks_flatten]
  rw [List.take_append_eq_append_take]
  simp

theorem scanPick_ge (steps : Nat) : ∀ d r, d ≤ scanPick steps d r := by
  induction steps with
  | zero => intro d r; exact Nat.le_refl d
  | succ steps ih =>
    intro d r
    show d ≤ if r < WBASE / d then d else scanPick steps (d + 1) (r - WBASE / d)
    split
    · exact Nat.le_refl d
    · exact Nat.le_trans (Nat.le_succ d) (ih (d + 1) _)

theorem scanPick_le (steps : Nat) : ∀ d r, scanPick steps d r ≤ d + steps := by
  induction steps with
  | zero => intro d r; exact Nat.le_refl d
  | succ steps ih =>
    intro d r
    show (if r < WBASE / d then d else scanPick steps (d + 1) (r - WBASE / d)) ≤ _
    split
    · omega
    · have := ih (d + 1) (r - WBASE / d)
      omega

theorem sampleDegree_pos (s k : Nat) : 1 ≤ (sampleDegree s k).1 := by
  unfold sampleDegree
  split
  · exact Nat.le_refl 1
  · split
    · exact Nat.le_refl 1
    · exact Nat.le_trans (by omega) (scanPick_ge (k - 2) 2 _)

theorem sampleDegree_le (s k : Nat) (hk : 0 < k) : (sampleDegree s k).1 ≤ k := by
  unfold sampleDegree
  split
  · rename_i h
    show 1 ≤ k
    omega
  · rename_i h
    split
    · show 1 ≤ k
      omega
    · show scanPick (k - 2) 2 (lcg (lcg s) % solTotal k) ≤ k
      have := scanPick_le (k - 2) 2 (lcg (lcg s) % solTotal k)
      omega

theorem getD_mem_of_lt {l : List Nat} {j : Nat} (h : j < l.length) :
    l.getD j 0 ∈ l := by
  induction l generalizing j with
  | nil => simp at h
  | cons x xs ih =>
    cases j with
    | zero => exact List.mem_cons_self x xs
    | succ j =>
      simp only [List.length_cons, Nat.succ_lt_succ_iff] at h
      exact List.mem_cons_of_mem x (ih h)

theorem getD_not_mem_eraseIdx {l : List Nat} {j : Nat}
    (hnd : l.Nodup) (h : j < l.length) : l.getD j 0 ∉ l.eraseIdx j := by
  induction l generalizing j with
  | nil => simp at h
  | cons x xs ih =>
    cases j with
    | zero =>
      simp only [List.getD_cons_zero, List.eraseIdx_cons_zero]
      exact (List.nodup_cons.mp hnd).1
    | succ j =>
      simp only [List.length_cons, Nat.succ_lt_succ_iff] at h
      simp only [List.getD_cons_succ, List.eraseIdx_cons_succ, List.mem_cons]
      push_neg
      constructor
      · intro heq
        exact (List.nodup_cons.mp hnd).1 (heq ▸ getD_mem_of_lt h)
      · exact ih (List.nodup_cons.mp hnd).2 h

theorem sampleIndices_spec : ∀ (d s : Nat) (rem : List Nat), rem.Nodup →
    ((sampleIndices s d rem).1.Nodup ∧
     (∀ x ∈ (sampleIndices s d rem).1, x ∈ rem) ∧
     (sampleIndices s d rem).1.length = min d rem.length) := by
  intro d
  induction d with
  | zero =>
    intro s rem _
    refine ⟨List.nodup_nil, by intro x hx; simp [sampleIndices] at hx, ?_⟩
    simp [sampleIndices]
  | succ d ih =>
    intro s rem hnd
    cases rem with
    | nil =>
      refine ⟨List.nodup_nil, by intro x hx; simp [sampleIndices] at hx, ?_⟩
      simp [sampleIndices]
    | cons x xs =>
      have hjlt : lcg s % (x :: xs).length < (x :: xs).length :=
        Nat.mod_lt _ (by simp)
      have hndE : ((x :: xs).eraseIdx (lcg s % (x :: xs).length)).Nodup :=
        hnd.eraseIdx _
      obtain ⟨ih1, ih2, ih3⟩ := ih (lcg s) ((x :: xs).eraseIdx (lcg s % (x :: xs).length)) hndE
      have hstep : (sampleIndices s (d + 1) (x :: xs)).1 =
          (x :: xs).getD (lcg s % (x :: xs).length) 0 ::
            (sampleIndices (lcg s) d ((x :: xs).eraseIdx (lcg s % (x :: xs).length))).1 := rfl
      rw [hstep]
      refine ⟨?_, ?_, ?_⟩
      · rw [List.nodup_cons]
        refine ⟨fun hmem => ?_, ih1⟩
        exact getD_not_mem_eraseIdx hnd hjlt (ih2 _ hmem)
      · intro y hy
        rcases List.mem_cons.mp hy with h | h
        · exact h ▸ getD_mem_of_lt hjlt
        · exact List.mem_of_mem_eraseIdx (ih2 y h)
      · rw [List.length_cons, ih3, List.length_eraseIdx_of_lt hjlt]
        simp only [List.length_cons]
        omega

theorem packetIndices_spec (pid k : Nat) (hk : 0 < k) :
    (packetIndices pid k).Nodup ∧
    (∀ i ∈ packetIndices pid k, i < k) ∧
    (packetIndices pid k).length = (sampleDegree (seed0 pid) k).1 ∧
    1 ≤ (packetIndices pid k).length ∧ (packetIndices pid k).length ≤ k := by
  obtain ⟨h1, h2, h3⟩ :=
    sampleIndices_spec (sampleDegree (seed0 pid) k).1 (sampleDegree (seed0 pid) k).2
      (List.range k) (List.nodup_range k)
  have hd1 := sampleDegree_pos (seed0 pid) k
  have hd2 := sampleDegree_le (seed0 pid) k hk
  have hIdx : packetIndices pid k =
      (sampleIndices (sampleDegree (seed0 pid) k).2 (sampleDegree (seed0 pid) k).1
        (List.range k)).1 := rfl
  rw [hIdx]
  refine ⟨h1, fun i hi => List.mem_range.mp (h2 i hi), ?_, ?_, ?_⟩ <;>
    simp only [h3, List.length_range] <;> omega

theorem xorMaskGo_zero (bs : List (List Nat)) : xorMaskGo bs 0 = zeros := by
  induction bs with
  | nil => rfl
  | cons b rest ih =>
    show (if (0 : Nat).testBit 0 then _ else xorMaskGo rest (0 >>> 1)) = zeros
    simp [ih]

theorem xorMaskGo_length (bs : List (List Nat)) (m : Nat)
    (hb : ∀ b ∈ bs, b.length = BLOCK_SIZE) :
    (xorMaskGo bs m).length = BLOCK_SIZE := by
  induction bs generalizing m with
  | nil => simp [xorMaskGo, zeros]
  | cons b rest ih =>
    have hbl : b.length = BLOCK_SIZE := hb b (List.mem_cons_self b rest)
    have hrest : ∀ x ∈ rest, x.length = BLOCK_SIZE :=
      fun x hx => hb x (List.mem_cons_of_mem b hx)
    show (if m.testBit 0 then zipXor b (xorMaskGo rest (m >>> 1))
      else xorMaskGo rest (m >>> 1)).length = BLOCK_SIZE
    split
    · rw [zipXor_length, hbl, ih _ hrest]
      exact Nat.min_self BLOCK_SIZE
    · exact ih _ hrest

theorem zipXor_left_comm (a b c : List Nat) :
    zipXor a (zipXor b c) = zipXor b (zipXor a c) := by
  rw [← zipXor_assoc, zipXor_comm a b, zipXor_assoc]

theorem shiftRight_one_xor (m1 m2 : Nat) :
    (m1 ^^^ m2) >>> 1 = (m1 >>> 1) ^^^ (m2 >>> 1) := by
  apply Nat.eq_of_testBit_eq
  intro j
  simp [Nat.testBit_shiftRight, Nat.testBit_xor]

theorem xorMaskGo_xor (bs : List (List Nat)) (m1 m2 : Nat)
    (hb : ∀ b ∈ bs, b.length = BLOCK_SIZE) :
    xorMaskGo bs (m1 ^^^ m2) = zipXor (xorMaskGo bs m1) (xorMaskGo bs m2) := by
  induction bs generalizing m1 m2 with
  | nil =>
    show zeros = zipXor zeros zeros
    rw [zipXor_zeros_right zeros (by simp [zeros])]
  | cons b rest ih =>
    have hbl : b.length = BLOCK_SIZE := hb b (List.mem_cons_self b rest)
    have hrest : ∀ x ∈ rest, x.length = BLOCK_SIZE :=
      fun x hx => hb x (List.mem_cons_of_mem b hx)
    have hbit : (m1 ^^^ m2).testBit 0 = ((m1.testBit 0).xor (m2.testBit 0)) :=
      Nat.testBit_xor m1 m2 0
    have hshift : (m1 ^^^ m2) >>> 1 = (m1 >>> 1) ^^^ (m2 >>> 1) :=
      shiftRight_one_xor m1 m2
    have hLrest : ∀ m, (xorMaskGo rest m).length = BLOCK_SIZE :=
      fun m => xorMaskGo_length rest m hrest
    show (if (m1 ^^^ m2).testBit 0 then zipXor b (xorMaskGo rest ((m1 ^^^ m2) >>> 1))
        else xorMaskGo rest ((m1 ^^^ m2) >>> 1)) =
      zipXor (if m1.testBit 0 then zipXor b (xorMaskGo rest (m1 >>> 1))
          else xorMaskGo rest (m1 >>> 1))
        (if m2.testBit 0 then zipXor b (xorMaskGo rest (m2 >>> 1))
          else xorMaskGo rest (m2 >>> 1))
    rw [hbit, hshift, ih _ _ hrest]
    cases h1 : m1.testBit 0 <;> cases h2 : m2.testBit 0
    · simp
    · simp
      rw [zipXor_left_comm]
    · simp
      rw [← zipXor_assoc]
    · simp
      rw [zipXor_assoc, zipXor_left_comm (xorMaskGo rest (m1 >>> 1)) b
        (xorMaskGo rest (m2 >>> 1))]
      rw [zipXor_self_cancel b (zipXor (xorMaskGo rest (m1 >>> 1))
        (xorMaskGo rest (m2 >>> 1))) ?hlen]
      case hlen =>
        rw [zipXor_length, hLrest, hLrest, Nat.min_self, hbl]

theorem xorMaskGo_pow (bs : List (List Nat)) (i : Nat)
    (hb : ∀ b ∈ bs, b.length = BLOCK_SIZE) :
    xorMaskGo bs (1 <<< i) = bs.getD i zeros := by
  induction bs generalizing i with
  | nil =>
    show zeros = List.getD [] i zeros
    simp
  | cons b rest ih =>
    have hbl : b.length = BLOCK_SIZE := hb b (List.mem_cons_self b rest)
    have hrest : ∀ x ∈ rest, x.length = BLOCK_SIZE :=
      fun x hx => hb x (List.mem_cons_of_mem b hx)
    cases i with
    | zero =>
      have hbit : (1 <<< 0).testBit 0 = true := by decide
      have hsh : (1 <<< 0) >>> 1 = 0 := by decide
      have h0 : xorMaskGo (b :: rest) (1 <<< 0) = zipXor b (xorMaskGo rest 0) := by
        show (if (1 <<< 0).testBit 0 then zipXor b (xorMaskGo rest ((1 <<< 0) >>> 1))
          else xorMaskGo rest ((1 <<< 0) >>> 1)) = _
        rw [hbit, hsh]
        exact if_pos rfl
      rw [h0, xorMaskGo_zero, zipXor_zeros_right b hbl]
      rfl
    | succ i =>
      have hbit : (1 <<< (i + 1)).testBit 0 = false := by
        rw [Nat.one_shiftLeft]
        exact Nat.testBit_two_pow_of_ne (Nat.succ_ne_zero i)
      have hsh : (1 <<< (i + 1)) >>> 1 = 1 <<< i := by
        rw [Nat.one_shiftLeft, Nat.one_shiftLeft, Nat.shiftRight_succ, Nat.shiftRight_zero]
        rw [Nat.pow_succ]
        exact Nat.mul_div_cancel _ (by omega)
      have h0 : xorMaskGo (b :: rest) (1 <<< (i + 1)) = xorMaskGo rest (1 <<< i) := by
        show (if (1 <<< (i + 1)).testBit 0
            then zipXor b (xorMaskGo rest ((1 <<< (i + 1)) >>> 1))
          else xorMaskGo rest ((1 <<< (i + 1)) >>> 1)) = _
        rw [hbit, hsh]
        exact if_neg (by simp)
      rw [h0, ih i hrest]
      rfl

theorem testBit_maskOf (idxs : List Nat) (j : Nat) :
    (maskOf idxs).testBit j = true ↔ j ∈ idxs := by
  induction idxs with
  | nil => simp [maskOf]
  | cons i rest ih =>
    show (maskOf rest ||| 1 <<< i).testBit j = true ↔ _
    rw [Nat.testBit_or, Nat.one_shiftLeft, Nat.testBit_two_pow]
    simp only [Bool.or_eq_true, decide_eq_true_eq, List.mem_cons, ih]
    tauto

theorem maskOf_lt (idxs : List Nat) (k : Nat) (h : ∀ i ∈ idxs, i < k) :
    maskOf idxs < 2 ^ k := by
  apply Nat.lt_pow_two_of_testBit
  intro j hj
  by_contra hbit
  have hmem : j ∈ idxs := (testBit_maskOf idxs j).mp (by
    cases hb : (maskOf idxs).testBit j
    · exact absurd hb hbit
    · rfl)
  exact absurd (h j hmem) (by omega)

theorem maskOf_cons_not_mem (i : Nat) (rest : List Nat) (h : i ∉ rest) :
    maskOf (i :: rest) = (1 <<< i) ^^^ maskOf rest := by
  apply Nat.eq_of_testBit_eq
  intro j
  show (maskOf rest ||| 1 <<< i).testBit j = _
  rw [Nat.testBit_or, Nat.testBit_xor]
  by_cases hji : j = i
  · subst hji
    have h1 : (1 <<< j).testBit j = true := by
      rw [Nat.one_shiftLeft]; exact Nat.testBit_two_pow_self
    have h2 : (maskOf rest).testBit j = false := by
      cases hb : (maskOf rest).testBit j
      · rfl
      · exact absurd ((testBit_maskOf rest j).mp hb) h
    rw [h1, h2]
    rfl
  · have h1 : (1 <<< i).testBit j = false := by
      rw [Nat.one_shiftLeft]
      exact Nat.testBit_two_pow_of_ne (fun he => hji he.symm)
    rw [h1]
    cases (maskOf rest).testBit j <;> rfl

theorem encode_data_eq_xorMask (blocks : List (List Nat)) (idxs : List Nat)
    (hnd : idxs.Nodup) (hb : ∀ b ∈ blocks, b.length = BLOCK_SIZE) :
    idxs.foldr (fun i acc => zipXor (blocks.getD i zeros) acc) zeros =
      xorMaskGo blocks (maskOf idxs) := by
  induction idxs with
  | nil => exact (xorMaskGo_zero blocks).symm
  | cons i rest ih =>
    obtain ⟨hnotmem, hndrest⟩ := List.nodup_cons.mp hnd
    show zipXor (blocks.getD i zeros) (rest.foldr _ zeros) = _
    rw [ih hndrest, maskOf_cons_not_mem i rest hnotmem, xorMaskGo_xor blocks _ _ hb,
      xorMaskGo_pow blocks i hb]

/-! ## Claim theorems -/
/-- C3: for every positive block count `k`, `planCount k` equals
`ceil(k * 1.5)` (i.e. `(3k + 1) / 2` in ℕ) when `k < 20` and
`ceil(k * 1.3)` (i.e. `(13k + 9) / 10`) when `k ≥ 20`, and is never less
than `k + 1`; in particular `planCount 5 = 8`. -/
theorem planCount_spec (k : Nat) (hk : 0 < k) :
    (k < 20 → planCount k = (3 * k + 1) / 2) ∧
    (20 ≤ k → planCount k = (13 * k + 9) / 10) ∧
    k + 1 ≤ planCount k ∧ planCount 5 = 8 := by
  unfold planCount
  refine ⟨fun h => ?_, fun h => ?_, ?_, by decide⟩
  · rw [if_pos h]
    omega
  · rw [if_neg (by omega)]
    omega
  · split <;> omega

/-- Witness for C3 at `k = 5`. -/
theorem planCount_spec_witness :
    0 < 5 ∧ ((5 < 20 → planCount 5 = (3 * 5 + 1) / 2) ∧
      (20 ≤ 5 → planCount 5 = (13 * 5 + 9) / 10) ∧
      5 + 1 ≤ planCount 5 ∧ planCount 5 = 8) :=
  ⟨by decide, planCount_spec 5 (by decide)⟩

/-- C6: for every payload accepted by the BlockSplitter (length at least
the minimum threshold), the output is exactly
`k = ceil(totalBytes / blockSize)` blocks of exactly `blockSize` bytes,
the final block right-padded with zero bytes (the flattening is the
payload followed by zero padding), and truncating the concatenation to
`totalBytes` from the Session metadata recovers the original payload. -/
theorem splitBlocks_spec (sid : String) (payload : List Nat)
    (hlen : MIN_FOUNTAIN_SIZE ≤ payload.length) :
    splitBlocks payload = Except.ok (splitChunks payload) ∧
    (splitChunks payload).length = ceilDiv payload.length BLOCK_SIZE ∧
    (∀ b ∈ splitChunks payload, b.length = BLOCK_SIZE) ∧
    (splitChunks payload).flatten =
      payload ++ List.replicate
        (BLOCK_SIZE * (splitChunks payload).length - payload.length) 0 ∧
    (splitChunks payload).flatten.take (mkSession sid payload).totalBytes =
      payload := by
  refine ⟨?_, splitChunks_length payload, splitChunks_each payload,
    splitChunks_flatten payload, splitChunks_take payload⟩
  unfold splitBlocks
  rw [if_neg (by omega)]

/-- Witness for C6 at a concrete 50-byte payload. -/
theorem splitBlocks_spec_witness :
    MIN_FOUNTAIN_SIZE ≤ pay50.length ∧
    (splitChunks pay50).length = ceilDiv pay50.length BLOCK_SIZE ∧
    splitBlocks pay50 = Except.ok (splitChunks pay50) :=
  ⟨by decide, (splitBlocks_spec "s" pay50 (by decide)).2.1,
    (splitBlocks_spec "s" pay50 (by decide)).1⟩

/-- C5: `encode` is deterministic and pure — its `indices` and `data`
depend only on `(blocks, packetId)` under the fixed seed scheme — and for
every block array and packet id the indices are `d` distinct values in
`[0, k)` with `d ∈ [1, k]`, and the data is the XOR of `blocks[i]` over
`i ∈ indices`. -/
theorem encode_deterministic_wellformed (s1 s2 : Session)
    (blocks : List (List Nat)) (pid : Nat) (hk : 0 < blocks.length) :
    ((encode s1 blocks pid).indices = (encode s2 blocks pid).indices ∧
      (encode s1 blocks pid).data = (encode s2 blocks pid).data) ∧
    (encode s1 blocks pid).indices.Nodup ∧
    (∀ i ∈ (encode s1 blocks pid).indices, i < blocks.length) ∧
    1 ≤ (encode s1 blocks pid).indices.length ∧
    (encode s1 blocks pid).indices.length ≤ blocks.length ∧
    (encode s1 blocks pid).data =
      (encode s1 blocks pid).indices.foldr
        (fun i acc => zipXor (blocks.getD i zeros) acc) zeros := by
  obtain ⟨h1, h2, _, h4, h5⟩ := packetIndices_spec pid blocks.length hk
  exact ⟨⟨rfl, rfl⟩, h1, h2, h4, h5, rfl⟩

/-- Witness for C5 at concrete blocks and sessions. -/
theorem encode_deterministic_wellformed_witness :
    0 < blocksW.length ∧
    ((encode sessA blocksW 0).indices = (encode sessB blocksW 0).indices ∧
      (encode sessA blocksW 0).data = (encode sessB blocksW 0).data) ∧
    (encode sessA blocksW 0).indices.Nodup ∧
    (∀ i ∈ (encode sessA blocksW 0).indices, i < blocksW.length) :=
  ⟨by decide,
    (encode_deterministic_wellformed sessA sessB blocksW 0 (by decide)).1,
    (encode_deterministic_wellformed sessA sessB blocksW 0 (by decide)).2.1,
    (encode_deterministic_wellformed sessA sessB blocksW 0 (by decide)).2.2.1⟩

/-- C8: a packet whose `sessionId` differs from the decoder's session (or
whose session-constant fields `k`, `totalBytes` or `checksum` conflict)
leaves the decoder's entire state — `resolved`, `pending`,
`receivedPacketIds` and `isComplete` — unchanged; `addPacket` is total,
so no error is raised. -/
theorem addPacket_foreign_noop (s : DecoderState) (p : Packet)
    (h : p.sessionId ≠ s.sessionId ∨ p.k ≠ s.k ∨ p.totalBytes ≠ s.totalBytes ∨
      p.checksum ≠ s.checksum) :
    addPacket s p = s ∧ (addPacket s p).resolved = s.resolved ∧
    (addPacket s p).pending = s.pending ∧
    (addPacket s p).receivedPacketIds = s.receivedPacketIds ∧
    isComplete (addPacket s p) = isComplete s := by
  have hs : addPacket s p = s := by
    unfold addPacket
    rw [if_pos h]
  exact ⟨hs, by rw [hs], by rw [hs], by rw [hs], by rw [hs]⟩

/-- Witness for C8: a `"B"`-session packet against an `"A"`-session
decoder. -/
theorem addPacket_foreign_noop_witness :
    (packB.sessionId ≠ (initDecoder sessA).sessionId ∨
      packB.k ≠ (initDecoder sessA).k ∨
      packB.totalBytes ≠ (initDecoder sessA).totalBytes ∨
      packB.checksum ≠ (initDecoder sessA).checksum) ∧
    addPacket (initDecoder sessA) packB = initDecoder sessA :=
  ⟨by decide, (addPacket_foreign_noop (initDecoder sessA) packB (by decide)).1⟩

/-- C9: on full reconstruction the result carries the reconstructed bytes
together with the independent checksum-verification boolean — the bytes
are returned to the caller whether `verify` returned `true` or `false`. -/
theorem getResult_independent (s : DecoderState) (h : isComplete s = true) :
    getResult s = some ⟨reconstruct s, verify (reconstruct s) s.checksum⟩ := by
  unfold getResult
  rw [if_pos h]

/-- Witness for C9: a complete decode whose checksum does not verify
still returns the reconstructed bytes, with `checksumOk = false`. -/
theorem getResult_independent_witness :
    isComplete mismatchState = true ∧
    getResult mismatchState = some ⟨[0, 0], false⟩ :=
  ⟨by decide, (getResult_independent mismatchState (by decide)).trans (by decide)⟩

/-! ## Object flattening: the record is the leaf-path list when paths are
distinct -/
theorem assign_of_not_mem (r : List (String × JValue)) (key : String)
    (v : JValue) (h : key ∉ r.map Prod.fst) :
    assign r key v = r ++ [(key, v)] := by
  unfold assign
  rw [if_neg]
  intro hany
  rw [List.any_eq_true] at hany
  obtain ⟨e, he, heq⟩ := hany
  exact h (List.mem_map.mpr ⟨e, he, eq_of_beq heq⟩)

theorem assignAll_of_nodup (r es : List (String × JValue))
    (h : ((r ++ es).map Prod.fst).Nodup) : assignAll r es = r ++ es := by
  induction es generalizing r with
  | nil => simp [assignAll]
  | cons e rest ih =>
    have hkey : e.1 ∉ r.map Prod.fst := by
      intro hmem
      rw [List.map_append] at h
      have hdisj := (List.nodup_append.mp h).2.2
      exact hdisj hmem (by simp)
    have hstep : assignAll r (e :: rest) = assignAll (assign r e.1 e.2) rest := rfl
    rw [hstep, assign_of_not_mem r e.1 e.2 hkey]
    have h2 : (((r ++ [(e.1, e.2)]) ++ rest).map Prod.fst).Nodup := by
      rw [List.append_assoc]
      simpa using h
    rw [ih _ h2, List.append_assoc]
    rfl

theorem flattenInto_eq_leaf (n : Nat) :
    ∀ (fields : JObj) (pre : String) (acc : List (String × JValue)),
      sizeJO fields ≤ n →
      ((acc ++ leafEntries fields pre).map Prod.fst).Nodup →
      flattenInto fields pre acc = acc ++ leafEntries fields pre := by
  induction n with
  | zero =>
    intro fields pre acc hsz _
    cases fields with
    | nil => simp [flattenInto, leafEntries]
    | cons key v rest =>
      cases v <;> simp [sizeJO] at hsz
  | succ n ih =>
    intro fields pre acc hsz hnd
    cases fields with
    | nil => simp [flattenInto, leafEntries]
    | cons key v rest =>
      cases v
      case obj sub =>
        have hsz1 : sizeJO sub ≤ n := by
          simp only [sizeJO] at hsz
          omega
        have hsz2 : sizeJO rest ≤ n := by
          simp only [sizeJO] at hsz
          omega
        have hleaf : leafEntries (.cons key (JValue.obj sub) rest) pre =
            leafEntries sub (dotKey pre key) ++ leafEntries rest pre := rfl
        rw [hleaf] at hnd
        have hndsub : (([] ++ leafEntries sub (dotKey pre key)).map Prod.fst).Nodup := by
          simp only [List.nil_append]
          refine List.Nodup.sublist ?_ hnd
          rw [List.map_append]
          refine List.Sublist.trans ?_ (List.sublist_append_right _ _)
          rw [List.map_append]
          exact List.sublist_append_left _ _
        have hinner := ih sub (dotKey pre key) [] hsz1 hndsub
        simp only [List.nil_append] at hinner
        have hshow : flattenInto (.cons key (JValue.obj sub) rest) pre acc =
            flattenInto rest pre
              (assignAll acc (flattenInto sub (dotKey pre key) [])) := rfl
        rw [hshow, hinner]
        have hnd2 : ((acc ++ leafEntries sub (dotKey pre key)).map Prod.fst).Nodup := by
          refine List.Nodup.sublist ?_ hnd
          rw [List.map_append, List.map_append, List.map_append]
          exact List.Sublist.append_left (List.sublist_append_left _ _) _
        rw [assignAll_of_nodup acc _ hnd2]
        have hnd3 : (((acc ++ leafEntries sub (dotKey pre key)) ++
            leafEntries rest pre).map Prod.fst).Nodup := by
          rw [List.append_assoc]
          exact hnd
        rw [ih rest pre _ hsz2 hnd3, hleaf, List.append_assoc]
      all_goals
        have hsz2 : sizeJO rest ≤ n := by
          simp only [sizeJO] at hsz
          omega
        simp only [flattenInto, leafEntries] at hnd ⊢
        have hpath : dotKey pre key ∉ acc.map Prod.fst := by
          intro hmem
          rw [List.map_append] at hnd
          have hdisj := (List.nodup_append.mp hnd).2.2
          exact hdisj hmem (by simp)
        rw [assign_of_not_mem acc _ _ hpath]
        rw [ih rest pre _ hsz2 (by rw [List.append_assoc]; simpa using hnd),
          List.append_assoc]
        rfl

/-- C10 (amended): for every finite acyclic object whose leaves have
pairwise-distinct dot-joined paths, `flattenObject` returns exactly the
`(path, leaf value)` entries in traversal order — its keys are exactly
the dot-joined root-to-leaf paths (null and arrays are leaves and are not
recursed into; a nested plain object contributes no key of its own, so a
nested empty object contributes none at all), and each leaf value appears
unchanged under its path key.  The distinct-path proviso is the
amendment: when two leaves share a dot-joined path (possible because a
key may itself contain a dot), the later assignment overwrites the
earlier and that leaf value is lost. -/
theorem flattenObject_spec (fields : JObj)
    (hnd : ((leafEntries fields "").map Prod.fst).Nodup) :
    flattenObject fields "" = leafEntries fields "" ∧
    (flattenObject fields "").map Prod.fst =
      (leafEntries fields "").map Prod.fst ∧
    ∀ pv ∈ leafEntries fields "", pv ∈ flattenObject fields "" := by
  have h := flattenInto_eq_leaf (sizeJO fields) fields "" [] (Nat.le_refl _)
    (by simpa using hnd)
  simp only [List.nil_append] at h
  refine ⟨h, by rw [flattenObject, h], fun pv hm => ?_⟩
  show pv ∈ flattenInto fields "" []
  rw [h]
  exact hm

/-- Witness for C10 (amended) at a concrete nested object with an empty
nested object, an array leaf and a null leaf. -/
theorem flattenObject_spec_witness :
    ((leafEntries nestedObj "").map Prod.fst).Nodup ∧
    flattenObject nestedObj "" = leafEntries nestedObj "" :=
  ⟨by decide, (flattenObject_spec nestedObj (by decide)).1⟩

/-- C10 counterexample: in `{a: {b: 1}, "a.b": 2}` both leaves have the
dot-joined path `a.b`; the leaf value `1` does not appear in the
flattened record (the later assignment overwrote it), so the record is
not the leaf-path mapping claimed. -/
theorem flattenObject_counterexample :
    ("a.b", JValue.num 1) ∈ leafEntries collideObj "" ∧
    ("a.b", JValue.num 1) ∉ flattenObject collideObj "" ∧
    flattenObject collideObj "" ≠ leafEntries collideObj "" := by
  refine ⟨?_, ?_, ?_⟩
  · have h : leafEntries collideObj "" =
        [("a.b", JValue.num 1), ("a.b", JValue.num 2)] := rfl
    rw [h]
    exact List.mem_cons_self _ _
  · have h : flattenObject collideObj "" = [("a.b", JValue.num 2)] := rfl
    rw [h]
    intro hmem
    simp at hmem
  · intro he
    have h1 : flattenObject collideObj "" = [("a.b", JValue.num 2)] := rfl
    have h2 : leafEntries collideObj "" =
        [("a.b", JValue.num 1), ("a.b", JValue.num 2)] := rfl
    rw [h1, h2] at he
    simp at he

/-! ## Equation-wise invariant preservation through the decoder

Every decoder operation produces equations only as XOR-combinations of
existing equations (peeling reduction XORs resolved singletons out,
elimination XORs rows); hence any predicate on equations that is closed
under XOR-combination is preserved. -/
theorem reduceBy_pres {P : Nat → List Nat → Prop}
    (hx : ∀ m1 d1 m2 d2, P m1 d1 → P m2 d2 → P (m1 ^^^ m2) (zipXor d1 d2))
    (resolved : List (Nat × List Nat)) :
    ∀ e : Nat × List Nat, (∀ rb ∈ resolved, P (1 <<< rb.1) rb.2) → P e.1 e.2 →
      P (reduceBy resolved e).1 (reduceBy resolved e).2 := by
  induction resolved with
  | nil => intro e _ he; exact he
  | cons rb rest ih =>
    intro e hres he
    have hstep : reduceBy (rb :: rest) e = reduceBy rest
        (if e.1.testBit rb.1 then (e.1 ^^^ (1 <<< rb.1), zipXor e.2 rb.2)
         else e) := rfl
    rw [hstep]
    apply ih _ (fun x hmem => hres x (List.mem_cons_of_mem rb hmem))
    split
    · exact hx _ _ _ _ he (hres rb (List.mem_cons_self rb rest))
    · exact he

theorem gaussReduce_pres {P : Nat → List Nat → Prop}
    (hx : ∀ m1 d1 m2 d2, P m1 d1 → P m2 d2 → P (m1 ^^^ m2) (zipXor d1 d2))
    (basis : List (Nat × List Nat)) :
    ∀ e : Nat × List Nat, (∀ row ∈ basis, P row.1 row.2) → P e.1 e.2 →
      P (gaussReduce basis e).1 (gaussReduce basis e).2 := by
  induction basis with
  | nil => intro e _ he; exact he
  | cons row rest ih =>
    intro e hb he
    have hstep : gaussReduce (row :: rest) e = gaussReduce rest
        (if e.1.testBit (log2s row.1) then (e.1 ^^^ row.1, zipXor e.2 row.2)
         else e) := rfl
    rw [hstep]
    apply ih _ (fun x hmem => hb x (List.mem_cons_of_mem row hmem))
    split
    · exact hx _ _ _ _ he (hb row (List.mem_cons_self row rest))
    · exact he

theorem gaussRows_pres {P : Nat → List Nat → Prop}
    (hx : ∀ m1 d1 m2 d2, P m1 d1 → P m2 d2 → P (m1 ^^^ m2) (zipXor d1 d2)) :
    ∀ (rows basis : List (Nat × List Nat)),
      (∀ r ∈ basis, P r.1 r.2) → (∀ e ∈ rows, P e.1 e.2) →
      ∀ r ∈ gaussRows basis rows, P r.1 r.2 := by
  intro rows
  induction rows with
  | nil => intro basis hb _ r hr; exact hb r hr
  | cons e rest ih =>
    intro basis hb he r hr
    have hge : P (gaussReduce basis e).1 (gaussReduce basis e).2 :=
      gaussReduce_pres hx basis e hb (he e (List.mem_cons_self e rest))
    have hrest : ∀ x ∈ rest, P x.1 x.2 :=
      fun x hmem => he x (List.mem_cons_of_mem e hmem)
    simp only [gaussRows] at hr
    split at hr
    · exact ih basis hb hrest r hr
    · refine ih _ ?_ hrest r hr
      intro row hrow
      rcases List.mem_append.mp hrow with h | h
      · exact hb row h
      · rw [List.mem_singleton] at h
        exact h ▸ hge

theorem peelLoop_pres {P : Nat → List Nat → Prop}
    (hx : ∀ m1 d1 m2 d2, P m1 d1 → P m2 d2 → P (m1 ^^^ m2) (zipXor d1 d2)) :
    ∀ (fuel : Nat) (resolved pending queue : List (Nat × List Nat)),
      (∀ rb ∈ resolved, P (1 <<< rb.1) rb.2) →
      (∀ e ∈ pending, P e.1 e.2) → (∀ e ∈ queue, P e.1 e.2) →
      (∀ rb ∈ (peelLoop fuel resolved pending queue).1, P (1 <<< rb.1) rb.2) ∧
      ∀ e ∈ (peelLoop fuel resolved pending queue).2, P e.1 e.2 := by
  intro fuel
  induction fuel with
  | zero =>
    intro resolved pending queue hres hpend hq
    exact ⟨hres, fun e he => (List.mem_append.mp he).elim (hpend e) (hq e)⟩
  | succ fuel ih =>
    intro resolved pending queue hres hpend hq
    cases queue with
    | nil => exact ⟨hres, hpend⟩
    | cons e rest =>
      have hred : P (reduceBy resolved e).1 (reduceBy resolved e).2 :=
        reduceBy_pres hx resolved e hres (hq e (List.mem_cons_self e rest))
      have hqrest : ∀ x ∈ rest, P x.1 x.2 :=
        fun x hmem => hq x (List.mem_cons_of_mem e hmem)
      simp only [peelLoop]
      split
      · exact ih resolved pending rest hres hpend hqrest
      · split
        · split
          · exact ih resolved pending rest hres hpend hqrest
          · rename_i h0 hsing hlook
            refine ih _ [] _ ?_ (by simp) ?_
            · intro rb hrb
              rcases List.mem_cons.mp hrb with hhead | htail
              · rw [hhead]
                show P (1 <<< log2s (reduceBy resolved e).1) (reduceBy resolved e).2
                rw [← hsing]
                exact hred
              · exact hres rb htail
            · intro x hmem
              rcases List.mem_append.mp hmem with h | h
              · exact hpend x h
              · exact hqrest x h
        · refine ih resolved (pending ++ [reduceBy resolved e]) rest hres ?_ hqrest
          intro x hmem
          rcases List.mem_append.mp hmem with h | h
          · exact hpend x h
          · rw [List.mem_singleton] at h
            exact h ▸ hred

theorem solveStep_pres {P : Nat → List Nat → Prop}
    (hx : ∀ m1 d1 m2 d2, P m1 d1 → P m2 d2 → P (m1 ^^^ m2) (zipXor d1 d2))
    (s : DecoderState) (m : Nat) (d : List Nat)
    (hres : ∀ rb ∈ s.resolved, P (1 <<< rb.1) rb.2)
    (hpend : ∀ e ∈ s.pending, P e.1 e.2) (hmd : P m d) :
    (∀ rb ∈ (solveStep s m d).1, P (1 <<< rb.1) rb.2) ∧
    ∀ e ∈ (solveStep s m d).2, P e.1 e.2 := by
  have h1 := peelLoop_pres hx (decodeFuel s) s.resolved s.pending [(m, d)] hres hpend
    (by
      intro x hmem
      rw [List.mem_singleton] at hmem
      exact hmem ▸ hmd)
  have hrows := gaussRows_pres hx
    (peelLoop (decodeFuel s) s.resolved s.pending [(m, d)]).2 [] (by simp) h1.2
  exact peelLoop_pres hx (decodeFuel s) _ [] _ h1.1 (by simp) hrows

theorem addPacket_fields (s : DecoderState) (p : Packet) :
    (addPacket s p).sessionId = s.sessionId ∧ (addPacket s p).k = s.k ∧
    (addPacket s p).totalBytes = s.totalBytes ∧
    (addPacket s p).checksum = s.checksum := by
  unfold addPacket
  split
  · exact ⟨rfl, rfl, rfl, rfl⟩
  · split
    · exact ⟨rfl, rfl, rfl, rfl⟩
    · exact ⟨rfl, rfl, rfl, rfl⟩

theorem feed_fields (ps : List Packet) : ∀ s : DecoderState,
    (feed s ps).sessionId = s.sessionId ∧ (feed s ps).k = s.k ∧
    (feed s ps).totalBytes = s.totalBytes ∧
    (feed s ps).checksum = s.checksum := by
  induction ps with
  | nil => exact fun s => ⟨rfl, rfl, rfl, rfl⟩
  | cons p rest ih =>
    intro s
    have h1 := addPacket_fields s p
    have h2 := ih (addPacket s p)
    exact ⟨h2.1.trans h1.1, h2.2.1.trans h1.2.1, h2.2.2.1.trans h1.2.2.1,
      h2.2.2.2.trans h1.2.2.2⟩

theorem addPacket_pres {P : Nat → List Nat → Prop}
    (hx : ∀ m1 d1 m2 d2, P m1 d1 → P m2 d2 → P (m1 ^^^ m2) (zipXor d1 d2))
    (s : DecoderState) (p : Packet) (hinv : EqInv P s)
    (hmd : p.sessionId = s.sessionId ∧ p.k = s.k ∧ p.totalBytes = s.totalBytes ∧
      p.checksum = s.checksum → P (pMask p) p.data) :
    EqInv P (addPacket s p) := by
  unfold addPacket
  split
  · exact hinv
  · split
    · exact hinv
    · rename_i hmatch _
      push_neg at hmatch
      exact solveStep_pres hx s (pMask p) p.data hinv.1 hinv.2
        (hmd ⟨hmatch.1, hmatch.2.1, hmatch.2.2.1, hmatch.2.2.2⟩)

theorem feed_pres {P : Nat → List Nat → Prop}
    (hx : ∀ m1 d1 m2 d2, P m1 d1 → P m2 d2 → P (m1 ^^^ m2) (zipXor d1 d2)) :
    ∀ (ps : List Packet) (s : DecoderState), EqInv P s →
      (∀ p ∈ ps, p.sessionId = s.sessionId ∧ p.k = s.k ∧
        p.totalBytes = s.totalBytes ∧ p.checksum = s.checksum →
        P (pMask p) p.data) →
      EqInv P (feed s ps) := by
  intro ps
  induction ps with
  | nil => exact fun s hinv _ => hinv
  | cons p rest ih =>
    intro s hinv hps
    have hf := addPacket_fields s p
    refine ih (addPacket s p)
      (addPacket_pres hx s p hinv (hps p (List.mem_cons_self p rest))) ?_
    intro q hq hqmatch
    refine hps q (List.mem_cons_of_mem p hq) ?_
    rw [hf.1, hf.2.1, hf.2.2.1, hf.2.2.2] at hqmatch
    exact hqmatch

/-! ## Monotonicity: resolved blocks never change or disappear -/
theorem lookupResolved_isSome_iff (r : List (Nat × List Nat)) (i : Nat) :
    (lookupResolved r i).isSome = true ↔ i ∈ r.map Prod.fst := by
  induction r with
  | nil => simp [lookupResolved]
  | cons jb rest ih =>
    show (if jb.1 = i then some jb.2 else lookupResolved rest i).isSome = true ↔ _
    by_cases h : jb.1 = i
    · simp [h]
    · simp only [if_neg h, List.map_cons, List.mem_cons, ih]
      constructor
      · exact Or.inr
      · intro hc
        rcases hc with hc | hc
        · exact absurd hc.symm h
        · exact hc

theorem lookupResolved_mem (r : List (Nat × List Nat)) (i : Nat) (b : List Nat)
    (h : lookupResolved r i = some b) : (i, b) ∈ r := by
  induction r with
  | nil => simp [lookupResolved] at h
  | cons jb rest ih =>
    revert h
    show (if jb.1 = i then some jb.2 else lookupResolved rest i) = some b → _
    by_cases hj : jb.1 = i
    · rw [if_pos hj]
      intro h
      have hjb : jb = (i, b) := by
        cases jb
        simp only at hj
        simp only [Option.some.injEq] at h
        simp [hj, h]
      rw [hjb]
      exact List.mem_cons_self _ _
    · rw [if_neg hj]
      intro h
      exact List.mem_cons_of_mem jb (ih h)

theorem peelLoop_lookup : ∀ (fuel : Nat)
    (resolved pending queue : List (Nat × List Nat)) (i : Nat) (b : List Nat),
    lookupResolved resolved i = some b →
    lookupResolved (peelLoop fuel resolved pending queue).1 i = some b := by
  intro fuel
  induction fuel with
  | zero => intro resolved pending queue i b h; exact h
  | succ fuel ih =>
    intro resolved pending queue i b h
    cases queue with
    | nil => exact h
    | cons e rest =>
      simp only [peelLoop]
      split
      · exact ih resolved pending rest i b h
      · split
        · split
          · exact ih resolved pending rest i b h
          · rename_i h0 hsing hlook
            apply ih
            show (if log2s (reduceBy resolved e).1 = i then
              some (reduceBy resolved e).2 else lookupResolved resolved i) = some b
            rw [if_neg]
            · exact h
            · intro heq
              apply hlook
              rw [heq, h]
              rfl
        · exact ih resolved (pending ++ [reduceBy resolved e]) rest i b h

theorem peelLoop_len : ∀ (fuel : Nat)
    (resolved pending queue : List (Nat × List Nat)),
    resolved.length ≤ (peelLoop fuel resolved pending queue).1.length := by
  intro fuel
  induction fuel with
  | zero => intro resolved pending queue; exact Nat.le_refl _
  | succ fuel ih =>
    intro resolved pending queue
    cases queue with
    | nil => exact Nat.le_refl _
    | cons e rest =>
      simp only [peelLoop]
      split
      · exact ih resolved pending rest
      · split
        · split
          · exact ih resolved pending rest
          · exact Nat.le_trans (Nat.le_succ _)
              (ih ((log2s (reduceBy resolved e).1, (reduceBy resolved e).2) ::
                resolved) [] (pending ++ rest))
        · exact ih resolved (pending ++ [reduceBy resolved e]) rest

theorem peelLoop_keys_nodup : ∀ (fuel : Nat)
    (resolved pending queue : List (Nat × List Nat)),
    (resolved.map Prod.fst).Nodup →
    ((peelLoop fuel resolved pending queue).1.map Prod.fst).Nodup := by
  intro fuel
  induction fuel with
  | zero => intro resolved pending queue h; exact h
  | succ fuel ih =>
    intro resolved pending queue h
    cases queue with
    | nil => exact h
    | cons e rest =>
      simp only [peelLoop]
      split
      · exact ih resolved pending rest h
      · split
        · split
          · exact ih resolved pending rest h
          · rename_i h0 hsing hlook
            apply ih
            rw [List.map_cons, List.nodup_cons]
            refine ⟨fun hmem => hlook ?_, h⟩
            rw [lookupResolved_isSome_iff]
            exact hmem
        · exact ih resolved (pending ++ [reduceBy resolved e]) rest h

theorem addPacket_resolved_mono (s : DecoderState) (p : Packet) :
    (∀ i b, lookupResolved s.resolved i = some b →
      lookupResolved (addPacket s p).resolved i = some b) ∧
    s.resolved.length ≤ (addPacket s p).resolved.length := by
  unfold addPacket
  split
  · exact ⟨fun i b h => h, Nat.le_refl _⟩
  · split
    · exact ⟨fun i b h => h, Nat.le_refl _⟩
    · constructor
      · intro i b h
        show lookupResolved (solveStep s (pMask p) p.data).1 i = some b
        unfold solveStep
        apply peelLoop_lookup
        exact peelLoop_lookup _ _ _ _ i b h
      · show s.resolved.length ≤ (solveStep s (pMask p) p.data).1.length
        unfold solveStep
        exact Nat.le_trans (peelLoop_len _ _ _ _) (peelLoop_len _ _ _ _)

theorem addPacket_keys_nodup (s : DecoderState) (p : Packet)
    (h : (s.resolved.map Prod.fst).Nodup) :
    ((addPacket s p).resolved.map Prod.fst).Nodup := by
  unfold addPacket
  split
  · exact h
  · split
    · exact h
    · show ((solveStep s (pMask p) p.data).1.map Prod.fst).Nodup
      unfold solveStep
      apply peelLoop_keys_nodup
      exact peelLoop_keys_nodup _ _ _ _ h

theorem feed_keys_nodup (ps : List Packet) : ∀ (s : DecoderState),
    (s.resolved.map Prod.fst).Nodup →
    ((feed s ps).resolved.map Prod.fst).Nodup := by
  induction ps with
  | nil => exact fun s h => h
  | cons p rest ih =>
    intro s h
    exact ih (addPacket s p) (addPacket_keys_nodup s p h)

/-- C7: across every sequence of `addPacket` calls on one decoder,
`resolvedCount` is non-decreasing, and a block index present in
`resolved` never leaves `resolved` or changes its bytes. -/
theorem resolved_monotone (s : DecoderState) (ps : List Packet) :
    resolvedCount s ≤ resolvedCount (feed s ps) ∧
    ∀ i b, lookupResolved s.resolved i = some b →
      lookupResolved (feed s ps).resolved i = some b := by
  induction ps generalizing s with
  | nil => exact ⟨Nat.le_refl _, fun _ _ h => h⟩
  | cons p rest ih =>
    have h1 := addPacket_resolved_mono s p
    have h2 := ih (addPacket s p)
    exact ⟨Nat.le_trans h1.2 h2.1, fun i b h => h2.2 i b (h1.1 i b h)⟩

/-- Witness for C7: feeding a packet to a decoder that already resolved
block 0 keeps block 0 resolved with the same bytes, and the count does
not decrease. -/
theorem resolved_monotone_witness :
    resolvedCount monoState ≤ resolvedCount (feed monoState [packC]) ∧
    lookupResolved (feed monoState [packC]).resolved 0 = some zeros :=
  ⟨(resolved_monotone monoState [packC]).1,
    (resolved_monotone monoState [packC]).2 0 zeros rfl⟩

/-! ## XOR spans and rank over GF(2) -/
theorem xor_left_comm_nat (a b c : Nat) : a ^^^ (b ^^^ c) = b ^^^ (a ^^^ c) := by
  rw [← Nat.xor_assoc, Nat.xor_comm a b, Nat.xor_assoc]

theorem spanF_zero_mem (L : List Nat) : 0 ∈ spanF L := by
  induction L with
  | nil => simp [spanF]
  | cons a rest ih =>
    simp only [spanF, Finset.mem_union]
    exact Or.inl ih

theorem spanF_xor_mem (L : List Nat) :
    ∀ x y, x ∈ spanF L → y ∈ spanF L → x ^^^ y ∈ spanF L := by
  induction L with
  | nil =>
    intro x y hx hy
    simp only [spanF, Finset.mem_singleton] at hx hy ⊢
    rw [hx, hy]
    rfl
  | cons a rest ih =>
    intro x y hx hy
    simp only [spanF, Finset.mem_union, Finset.mem_image] at hx hy ⊢
    rcases hx with hx | ⟨x1, hx1, hxe⟩ <;> rcases hy with hy | ⟨y1, hy1, hye⟩
    · exact Or.inl (ih x y hx hy)
    · refine Or.inr ⟨x ^^^ y1, ih x y1 hx hy1, ?_⟩
      rw [← hye, xor_left_comm_nat]
    · refine Or.inr ⟨x1 ^^^ y, ih x1 y hx1 hy, ?_⟩
      rw [← hxe, ← Nat.xor_assoc]
    · refine Or.inl ?_
      have hv : x ^^^ y = x1 ^^^ y1 := by
        rw [← hxe, ← hye]
        rw [Nat.xor_assoc, xor_left_comm_nat x1 a y1, ← Nat.xor_assoc,
          Nat.xor_self, Nat.zero_xor]
      rw [hv]
      exact ih x1 y1 hx1 hy1

theorem spanF_mem_of_mem (L : List Nat) : ∀ a ∈ L, a ∈ spanF L := by
  induction L with
  | nil => simp
  | cons b rest ih =>
    intro a ha
    simp only [spanF, Finset.mem_union, Finset.mem_image]
    rcases List.mem_cons.mp ha with rfl | htail
    · exact Or.inr ⟨0, spanF_zero_mem rest, Nat.xor_zero a⟩
    · exact Or.inl (ih a htail)

theorem spanF_cons_mono (a : Nat) (L : List Nat) :
    ∀ x ∈ spanF L, x ∈ spanF (a :: L) := by
  intro x hx
  simp only [spanF, Finset.mem_union]
  exact Or.inl hx

theorem spanF_subset (L1 L2 : List Nat) (h : ∀ m ∈ L1, m ∈ spanF L2) :
    ∀ x ∈ spanF L1, x ∈ spanF L2 := by
  induction L1 with
  | nil =>
    intro x hx
    simp only [spanF, Finset.mem_singleton] at hx
    rw [hx]
    exact spanF_zero_mem L2
  | cons a rest ih =>
    intro x hx
    simp only [spanF, Finset.mem_union, Finset.mem_image] at hx
    rcases hx with hx | ⟨x1, hx1, hxe⟩
    · exact ih (fun m hm => h m (List.mem_cons_of_mem a hm)) x hx
    · rw [← hxe]
      exact spanF_xor_mem L2 a x1 (h a (List.mem_cons_self a rest))
        (ih (fun m hm => h m (List.mem_cons_of_mem a hm)) x1 hx1)

theorem spanF_card_le (L : List Nat) : (spanF L).card ≤ 2 ^ L.length := by
  induction L with
  | nil => simp [spanF]
  | cons a rest ih =>
    have h1 : (spanF (a :: rest)).card ≤
        (spanF rest).card + ((spanF rest).image (a ^^^ ·)).card :=
      Finset.card_union_le _ _
    have h2 : ((spanF rest).image (a ^^^ ·)).card ≤ (spanF rest).card :=
      Finset.card_image_le
    simp only [List.length_cons, Nat.pow_succ]
    omega

theorem spanF_range_subset (L : List Nat) : ∀ k : Nat,
    (∀ i, i < k → (1 <<< i) ∈ spanF L) → ∀ m, m < 2 ^ k → m ∈ spanF L := by
  intro k
  induction k with
  | zero =>
    intro _ m hm
    have : m = 0 := by omega
    rw [this]
    exact spanF_zero_mem L
  | succ k ih =>
    intro h m hm
    by_cases hmk : m < 2 ^ k
    · exact ih (fun i hi => h i (Nat.lt_succ_of_lt hi)) m hmk
    · have hbitk : m.testBit k = true := by
        by_contra hb
        have hfalse : m.testBit k = false := by
          cases hv : m.testBit k
          · rfl
          · exact absurd hv hb
        have : m < 2 ^ k := by
          apply Nat.lt_pow_two_of_testBit
          intro j hj
          rcases Nat.eq_or_lt_of_le hj with heq | hlt
          · rw [← heq]
            exact hfalse
          · exact Nat.testBit_lt_two_pow
              (Nat.lt_of_lt_of_le hm (Nat.pow_le_pow_right (by omega) hlt))
        exact hmk this
      have hm2 : m ^^^ (1 <<< k) < 2 ^ k := by
        apply Nat.lt_pow_two_of_testBit
        intro j hj
        rw [Nat.testBit_xor]
        rcases Nat.eq_or_lt_of_le hj with heq | hlt
        · rw [← heq, hbitk, Nat.one_shiftLeft, Nat.testBit_two_pow_self]
          rfl
        · have h1 : m.testBit j = false := Nat.testBit_lt_two_pow
            (Nat.lt_of_lt_of_le hm (Nat.pow_le_pow_right (by omega) hlt))
          have h2 : (1 <<< k).testBit j = false := by
            rw [Nat.one_shiftLeft]
            exact Nat.testBit_two_pow_of_ne (by omega)
          rw [h1, h2]
          rfl
      have hmem2 : m ^^^ (1 <<< k) ∈ spanF L :=
        ih (fun i hi => h i (Nat.lt_succ_of_lt hi)) _ hm2
      have hk : (1 <<< k) ∈ spanF L := h k (Nat.lt_succ_self k)
      have hres := spanF_xor_mem L _ _ hk hmem2
      have hcanc : (1 <<< k) ^^^ (m ^^^ (1 <<< k)) = m := by
        rw [Nat.xor_comm m, ← Nat.xor_assoc, Nat.xor_self, Nat.zero_xor]
      rwa [hcanc] at hres

theorem rankReduce_span (basis : List Nat) :
    ∀ m : Nat, ∃ s ∈ spanF basis, rankReduce basis m = m ^^^ s := by
  induction basis with
  | nil =>
    intro m
    exact ⟨0, spanF_zero_mem [], (Nat.xor_zero m).symm⟩
  | cons r rest ih =>
    intro m
    have hstep : rankReduce (r :: rest) m =
        rankReduce rest (if m.testBit (log2s r) then m ^^^ r else m) := rfl
    rw [hstep]
    split
    · obtain ⟨s, hs, heq⟩ := ih (m ^^^ r)
      refine ⟨r ^^^ s, ?_, ?_⟩
      · exact spanF_xor_mem _ _ _ (spanF_mem_of_mem _ r (List.mem_cons_self r rest))
          (spanF_cons_mono r rest s hs)
      · rw [heq, Nat.xor_assoc]
    · obtain ⟨s, hs, heq⟩ := ih m
      exact ⟨s, spanF_cons_mono r rest s hs, heq⟩

theorem insertRow_mem_iff (m : Nat) : ∀ (b : List Nat) (a : Nat),
    a ∈ insertRow m b ↔ a = m ∨ a ∈ b := by
  intro b
  induction b with
  | nil => intro a; simp [insertRow]
  | cons r rest ih =>
    intro a
    simp only [insertRow]
    split
    · simp only [List.mem_cons]
    · simp only [List.mem_cons, ih]
      tauto

theorem insertRow_length (m : Nat) : ∀ b : List Nat,
    (insertRow m b).length = b.length + 1 := by
  intro b
  induction b with
  | nil => rfl
  | cons r rest ih =>
    simp only [insertRow]
    split
    · simp
    · simp only [List.length_cons, ih]

theorem spanF_of_insertRow (m : Nat) (b : List Nat) :
    ∀ x ∈ spanF (m :: b), x ∈ spanF (insertRow m b) := by
  apply spanF_subset
  intro y hy
  apply spanF_mem_of_mem
  rw [insertRow_mem_iff]
  rcases List.mem_cons.mp hy with h | h
  · exact Or.inl h
  · exact Or.inr h

theorem gaussMasks_span : ∀ (rest basis : List Nat),
    ∀ x ∈ spanF basis, x ∈ spanF (gaussMasks basis rest) := by
  intro rest
  induction rest with
  | nil => intro basis x hx; exact hx
  | cons m rest' ih =>
    intro basis x hx
    simp only [gaussMasks]
    split
    · exact ih basis x hx
    · exact ih _ x (spanF_of_insertRow _ basis x (spanF_cons_mono _ basis x hx))

theorem gaussMasks_covers : ∀ (rest basis : List Nat),
    ∀ m ∈ rest, m ∈ spanF (gaussMasks basis rest) := by
  intro rest
  induction rest with
  | nil => simp
  | cons m0 rest' ih =>
    intro basis m hm
    rcases List.mem_cons.mp hm with rfl | htail
    · obtain ⟨s, hs, heq⟩ := rankReduce_span basis m
      by_cases h0 : rankReduce basis m = 0
      · have hms : m = s := by
          rw [heq] at h0
          exact Nat.xor_eq_zero.mp h0
        simp only [gaussMasks, if_pos h0]
        exact gaussMasks_span rest' basis m (hms ▸ hs)
      · simp only [gaussMasks, if_neg h0]
        apply gaussMasks_span rest'
        have h1 : rankReduce basis m ∈ spanF (insertRow (rankReduce basis m) basis) :=
          spanF_mem_of_mem _ _ ((insertRow_mem_iff _ basis _).mpr (Or.inl rfl))
        have h2 : s ∈ spanF (insertRow (rankReduce basis m) basis) :=
          spanF_of_insertRow _ basis s (spanF_cons_mono _ basis s hs)
        have h3 := spanF_xor_mem _ _ _ h1 h2
        have hval : rankReduce basis m ^^^ s = m := by
          rw [heq, Nat.xor_assoc, Nat.xor_self, Nat.xor_zero]
        rwa [hval] at h3
    · by_cases h0 : rankReduce basis m0 = 0
      · simp only [gaussMasks, if_pos h0]
        exact ih basis m htail
      · simp only [gaussMasks, if_neg h0]
        exact ih _ m htail

theorem gaussMasks_len : ∀ (rest basis : List Nat),
    (gaussMasks basis rest).length ≤ basis.length + rest.length := by
  intro rest
  induction rest with
  | nil => intro basis; simp [gaussMasks]
  | cons m rest' ih =>
    intro basis
    simp only [gaussMasks]
    split
    · exact Nat.le_trans (ih basis) (by simp)
    · have hlen := ih (insertRow (rankReduce basis m) basis)
      rw [insertRow_length] at hlen
      simp only [List.length_cons]
      omega

theorem rank_lower_bound (L : List Nat) (k : Nat)
    (hall : ∀ i, i < k → (1 <<< i) ∈ spanF L) : k ≤ rankMasks L := by
  have hsub : ∀ x ∈ spanF L, x ∈ spanF (gaussMasks [] L) :=
    spanF_subset L _ (fun m hm => gaussMasks_covers L [] m hm)
  have h1 : Finset.range (2 ^ k) ⊆ spanF L := by
    intro m hm
    exact spanF_range_subset L k hall m (Finset.mem_range.mp hm)
  have h2 : 2 ^ k ≤ (spanF L).card := by
    have := Finset.card_le_card h1
    rwa [Finset.card_range] at this
  have h3 : (spanF L).card ≤ (spanF (gaussMasks [] L)).card :=
    Finset.card_le_card (fun x hx => hsub x hx)
  have h4 : (spanF (gaussMasks [] L)).card ≤ 2 ^ rankMasks L :=
    spanF_card_le _
  have hpow : 2 ^ k ≤ 2 ^ rankMasks L := by omega
  exact (Nat.pow_le_pow_iff_right (by omega)).mp hpow

/-! ## No false completion -/
theorem shiftLeft_lt_two_pow_iff (i k : Nat) : 1 <<< i < 2 ^ k ↔ i < k := by
  rw [Nat.one_shiftLeft]
  exact Nat.pow_lt_pow_iff_right (by omega)

theorem complete_all_resolved (s : DecoderState)
    (hnodup : (s.resolved.map Prod.fst).Nodup)
    (hbound : ∀ rb ∈ s.resolved, rb.1 < s.k)
    (hcomp : isComplete s = true) :
    ∀ i, i < s.k → (lookupResolved s.resolved i).isSome = true := by
  intro i hi
  rw [lookupResolved_isSome_iff]
  have hlen : s.resolved.length = s.k := by
    simp only [isComplete, beq_iff_eq] at hcomp
    exact hcomp
  have hcard : (s.resolved.map Prod.fst).toFinset.card = s.k := by
    rw [List.toFinset_card_of_nodup hnodup, List.length_map, hlen]
  have hsubr : (s.resolved.map Prod.fst).toFinset ⊆ Finset.range s.k := by
    intro a ha
    rw [List.mem_toFinset] at ha
    rw [Finset.mem_range]
    obtain ⟨rb, hrb, hfst⟩ := List.mem_map.mp ha
    exact hfst ▸ hbound rb hrb
  have heq : (s.resolved.map Prod.fst).toFinset = Finset.range s.k :=
    Finset.eq_of_subset_of_card_le hsubr (by rw [hcard, Finset.card_range])
  have : i ∈ (s.resolved.map Prod.fst).toFinset := by
    rw [heq, Finset.mem_range]
    exact hi
  exact List.mem_toFinset.mp this

theorem feed_complete_resolved (sess : Session) (rs : List Packet)
    (hvalid : ∀ p ∈ rs, ∀ i ∈ p.indices, i < p.k)
    (hcomp : isComplete (feed (initDecoder sess) rs) = true) :
    ∀ i, i < sess.k →
      (lookupResolved (feed (initDecoder sess) rs).resolved i).isSome = true := by
  have hF := feed_fields rs (initDecoder sess)
  have hk : (feed (initDecoder sess) rs).k = sess.k := hF.2.1
  have hinv : EqInv (fun m _ => m < 2 ^ sess.k) (feed (initDecoder sess) rs) := by
    refine feed_pres (fun m1 d1 m2 d2 h1 h2 => Nat.xor_lt_two_pow h1 h2) rs
      (initDecoder sess) ⟨?_, ?_⟩ ?_
    · intro rb hrb
      exact absurd hrb (List.not_mem_nil rb)
    · intro e he
      exact absurd he (List.not_mem_nil e)
    · intro p hp hmatch
      have hpk : p.k = sess.k := hmatch.2.1
      have := maskOf_lt p.indices p.k (hvalid p hp)
      rw [hpk] at this
      exact this
  have hbound : ∀ rb ∈ (feed (initDecoder sess) rs).resolved,
      rb.1 < (feed (initDecoder sess) rs).k := by
    intro rb hrb
    rw [hk]
    exact (shiftLeft_lt_two_pow_iff rb.1 sess.k).mp (hinv.1 rb hrb)
  have hnodup := feed_keys_nodup rs (initDecoder sess) (by simp [initDecoder])
  intro i hi
  exact complete_all_resolved _ hnodup hbound hcomp i (hk ▸ hi)

theorem span_deficient_incomplete (sess : Session) (rs : List Packet)
    (M : List Nat) (hvalid : ∀ p ∈ rs, ∀ i ∈ p.indices, i < p.k)
    (hspanM : ∀ p ∈ rs, pMask p ∈ spanF M)
    (hrank : rankMasks M < sess.k) :
    isComplete (feed (initDecoder sess) rs) = false := by
  cases hcase : isComplete (feed (initDecoder sess) rs) with
  | false => rfl
  | true =>
    exfalso
    have hres := feed_complete_resolved sess rs hvalid hcase
    have hspan : EqInv (fun m _ => m ∈ spanF M) (feed (initDecoder sess) rs) := by
      refine feed_pres (fun m1 d1 m2 d2 h1 h2 => spanF_xor_mem _ _ _ h1 h2) rs
        (initDecoder sess) ⟨?_, ?_⟩ ?_
      · intro rb hrb
        exact absurd hrb (List.not_mem_nil rb)
      · intro e he
        exact absurd he (List.not_mem_nil e)
      · intro p hp _
        exact hspanM p hp
    have hall : ∀ i, i < sess.k → (1 <<< i) ∈ spanF M := by
      intro i hi
      obtain ⟨b, hb⟩ := Option.isSome_iff_exists.mp (hres i hi)
      exact hspan.1 (i, b) (lookupResolved_mem _ i b hb)
    have := rank_lower_bound M sess.k hall
    omega

/-- C2: the Decoder never reports false completion — `isComplete` is true
only when all `k` source blocks are in `resolved`, and if the packets fed
in form a rank-deficient system over GF(2) (fewer than `k` linearly
independent equations for the `k` unknowns), `isComplete` stays false no
matter how many further `addPacket` calls are made with only those
packets. -/
theorem no_false_completion (sess : Session) (ps qs : List Packet)
    (hvalid : ∀ p ∈ ps, ∀ i ∈ p.indices, i < p.k)
    (hsub : ∀ q ∈ qs, q ∈ ps) :
    (isComplete (feed (initDecoder sess) ps) = true →
      ∀ i, i < sess.k →
        (lookupResolved (feed (initDecoder sess) ps).resolved i).isSome = true) ∧
    (rankMasks (ps.map pMask) < sess.k →
      isComplete (feed (initDecoder sess) (ps ++ qs)) = false) := by
  constructor
  · exact fun hcomp => feed_complete_resolved sess ps hvalid hcomp
  · intro hrank
    have hvalid2 : ∀ p ∈ ps ++ qs, ∀ i ∈ p.indices, i < p.k := by
      intro p hp
      rcases List.mem_append.mp hp with h | h
      · exact hvalid p h
      · exact hvalid p (hsub p h)
    refine span_deficient_incomplete sess (ps ++ qs) (ps.map pMask) hvalid2
      ?_ hrank
    intro p hp
    have hpmem : p ∈ ps := by
      rcases List.mem_append.mp hp with h | h
      · exact h
      · exact hsub p h
    exact spanF_mem_of_mem _ (pMask p) (List.mem_map.mpr ⟨p, hpmem, rfl⟩)

/-- Witness for C2: a single degree-2 packet over two unknowns is
rank-deficient (rank 1 < 2) and the decoder stays incomplete. -/
theorem no_false_completion_witness :
    (∀ p ∈ [packA], ∀ i ∈ p.indices, i < p.k) ∧
    rankMasks ([packA].map pMask) < sessA.k ∧
    isComplete (feed (initDecoder sessA) ([packA] ++ ([] : List Packet))) = false :=
  ⟨by decide, by decide,
    (no_false_completion sessA [packA] []
      (by decide) (fun q hq => absurd hq (List.not_mem_nil q))).2 (by decide)⟩

/-! ## Round trip: a completed decode reconstructs the payload exactly -/
theorem map_range_getD (bs : List (List Nat)) :
    (List.range bs.length).map (fun i => bs.getD i zeros) = bs := by
  induction bs with
  | nil => rfl
  | cons b rest ih =>
    rw [List.length_cons, List.range_succ_eq_map, List.map_cons]
    congr 1
    rw [List.map_map]
    have hcomp : ((fun i => (b :: rest).getD i zeros) ∘ Nat.succ) =
        (fun i => rest.getD i zeros) := by
      funext i
      rfl
    rw [hcomp, ih]

/-- C1 (amended): for every payload at least the minimum threshold,
feeding the `planCount(k)` deterministically-seeded packets to a fresh
Decoder in any permutation reconstructs, **whenever the decoder reports
completion**, a byte buffer equal to the original payload with the
checksum verifying.  Completion itself is not guaranteed for every
payload length: the seeded sampler can produce a collectively
rank-deficient packet set (it does at `k = 18`, see the counterexample),
in which case `isComplete` stays false. -/
theorem roundtrip_of_complete (sid : String) (payload : List Nat)
    (ps : List Packet) (hlen : MIN_FOUNTAIN_SIZE ≤ payload.length)
    (hperm : ps.Perm (packetsFor sid payload))
    (hcomp : isComplete (feed (initDecoder (mkSession sid payload)) ps) = true) :
    reconstruct (feed (initDecoder (mkSession sid payload)) ps) = payload ∧
    verify (reconstruct (feed (initDecoder (mkSession sid payload)) ps))
      (mkSession sid payload).checksum = true := by
  have hbl : ∀ b ∈ splitChunks payload, b.length = BLOCK_SIZE :=
    splitChunks_each payload
  have hklen : (splitChunks payload).length = ceilDiv payload.length BLOCK_SIZE :=
    splitChunks_length payload
  have hkeq : (mkSession sid payload).k = (splitChunks payload).length :=
    hklen.symm
  have hkpos : 0 < (splitChunks payload).length := by
    rw [hklen]
    simp only [ceilDiv, BLOCK_SIZE]
    simp only [MIN_FOUNTAIN_SIZE] at hlen
    omega
  have hmemchar : ∀ p ∈ ps,
      ∃ pid, p = encode (mkSession sid payload) (splitChunks payload) pid := by
    intro p hp
    have hmem := (hperm.mem_iff).mp hp
    simp only [packetsFor, List.mem_map, List.mem_range] at hmem
    obtain ⟨pid, _, hpe⟩ := hmem
    exact ⟨pid, hpe.symm⟩
  have hinv : EqInv
      (fun m d => d = xorMaskGo (splitChunks payload) m ∧
        m < 2 ^ (splitChunks payload).length)
      (feed (initDecoder (mkSession sid payload)) ps) := by
    refine feed_pres ?_ ps _ ⟨?_, ?_⟩ ?_
    · intro m1 d1 m2 d2 h1 h2
      refine ⟨?_, Nat.xor_lt_two_pow h1.2 h2.2⟩
      rw [h1.1, h2.1, xorMaskGo_xor _ _ _ hbl]
    · intro rb hrb
      exact absurd hrb (List.not_mem_nil rb)
    · intro e he
      exact absurd he (List.not_mem_nil e)
    · intro p hp _
      obtain ⟨pid, rfl⟩ := hmemchar p hp
      obtain ⟨hnd, hlt, _, _, _⟩ :=
        packetIndices_spec pid (splitChunks payload).length hkpos
      constructor
      · exact encode_data_eq_xorMask (splitChunks payload)
          (packetIndices pid (splitChunks payload).length) hnd hbl
      · exact maskOf_lt _ _ hlt
  have hvalid : ∀ p ∈ ps, ∀ i ∈ p.indices, i < p.k := by
    intro p hp i hi
    obtain ⟨pid, rfl⟩ := hmemchar p hp
    obtain ⟨_, hlt, _, _, _⟩ :=
      packetIndices_spec pid (splitChunks payload).length hkpos
    show i < (mkSession sid payload).k
    rw [hkeq]
    exact hlt i hi
  have hres := feed_complete_resolved (mkSession sid payload) ps hvalid hcomp
  have hlookup : ∀ i, i < (splitChunks payload).length →
      (lookupResolved (feed (initDecoder (mkSession sid payload)) ps).resolved
        i).getD zeros = (splitChunks payload).getD i zeros := by
    intro i hi
    have hsome := hres i (by rw [hkeq]; exact hi)
    obtain ⟨b, hb⟩ := Option.isSome_iff_exists.mp hsome
    have hmem := lookupResolved_mem _ i b hb
    have hP := hinv.1 (i, b) hmem
    have hPv : b = xorMaskGo (splitChunks payload) (1 <<< i) := hP.1
    rw [hb, Option.getD_some, hPv]
    exact xorMaskGo_pow _ i hbl
  have hFk : (feed (initDecoder (mkSession sid payload)) ps).k =
      (mkSession sid payload).k := (feed_fields ps _).2.1
  have hFt : (feed (initDecoder (mkSession sid payload)) ps).totalBytes =
      payload.length := (feed_fields ps _).2.2.1
  have hrecon : reconstruct (feed (initDecoder (mkSession sid payload)) ps) =
      payload := by
    unfold reconstruct
    rw [hFk, hkeq, hFt]
    have hmap : (List.range (splitChunks payload).length).map
        (fun i => (lookupResolved
          (feed (initDecoder (mkSession sid payload)) ps).resolved i).getD zeros) =
        splitChunks payload := by
      have hcongr := List.map_congr_left
        (fun i hi => hlookup i (List.mem_range.mp hi))
      rw [hcongr, map_range_getD]
    rw [hmap, splitChunks_take]
  refine ⟨hrecon, ?_⟩
  rw [hrecon]
  exact beq_self_eq_true (checksumOf payload)

set_option maxRecDepth 40000 in
/-- Witness for C1 (amended) at a 50-byte payload (`k = 1`): the decoder
completes on the two generated packets and reconstructs the payload with
a verified checksum. -/
theorem roundtrip_of_complete_witness :
    MIN_FOUNTAIN_SIZE ≤ pay50.length ∧
    isComplete (feed (initDecoder (mkSession "s" pay50)) (packetsFor "s" pay50)) =
      true ∧
    reconstruct (feed (initDecoder (mkSession "s" pay50)) (packetsFor "s" pay50)) =
      pay50 ∧
    verify (reconstruct (feed (initDecoder (mkSession "s" pay50))
        (packetsFor "s" pay50))) (mkSession "s" pay50).checksum = true :=
  ⟨by decide, by decide,
    roundtrip_of_complete "s" pay50 (packetsFor "s" pay50) (by decide)
      (List.Perm.refl _) (by decide)⟩

theorem packetsFor_valid (sid : String) (payload : List Nat)
    (hkpos : 0 < (splitChunks payload).length) :
    ∀ p ∈ packetsFor sid payload, ∀ i ∈ p.indices, i < p.k := by
  intro p hp i hi
  simp only [packetsFor, List.mem_map, List.mem_range] at hp
  obtain ⟨pid, _, rfl⟩ := hp
  obtain ⟨_, hlt, _, _, _⟩ :=
    packetIndices_spec pid (splitChunks payload).length hkpos
  show i < (mkSession sid payload).k
  rw [show (mkSession sid payload).k = ceilDiv payload.length BLOCK_SIZE from rfl,
    ← splitChunks_length payload]
  exact hlt i hi

theorem packetsFor_eq (sid : String) (payload : List Nat) :
    packetsFor sid payload =
      (List.range (planCount (splitChunks payload).length)).map
        (encode (mkSession sid payload) (splitChunks payload)) :=
  rfl

theorem mkSession_k (sid : String) (payload : List Nat) :
    (mkSession sid payload).k = ceilDiv payload.length BLOCK_SIZE :=
  rfl

theorem map_pMask_encode (sess : Session) (blocks : List (List Nat)) :
    ∀ l : List Nat,
      (l.map (encode sess blocks)).map pMask
        = l.map (fun pid => maskOf (packetIndices pid blocks.length))
  | [] => rfl
  | x :: xs => by
    show pMask (encode sess blocks x) ::
        ((xs.map (encode sess blocks)).map pMask) = _
    rw [map_pMask_encode sess blocks xs]
    rfl

theorem spanF_map_self (f : Packet → Nat) (rs : List Packet) :
    ∀ p ∈ rs, f p ∈ spanF (rs.map f) := by
  intro p hp
  exact spanF_mem_of_mem _ (f p) (List.mem_map_of_mem f hp)

theorem rank_deficient_incomplete (sess : Session) (rs : List Packet)
    (hvalid : ∀ p ∈ rs, ∀ i ∈ p.indices, i < p.k)
    (hrank : rankMasks (rs.map pMask) < sess.k) :
    isComplete (feed (initDecoder sess) rs) = false :=
  span_deficient_incomplete sess rs (rs.map pMask) hvalid
    (spanF_map_self pMask rs) hrank

set_option maxRecDepth 40000 in
/-- C1 counterexample: for the 3600-byte payload (`k = 18`,
`planCount 18 = 27` packets), feeding **all** generated packets to a
fresh decoder leaves `isComplete = false` — the seeded packets' index
sets are collectively rank-deficient (rank 17 over 18 unknowns), so the
round-trip claim fails as stated. -/
theorem roundtrip_counterexample :
    MIN_FOUNTAIN_SIZE ≤ pay18.length ∧
    isComplete (feed (initDecoder (mkSession "s" pay18)) (packetsFor "s" pay18)) =
      false := by
  have hlen3600 : pay18.length = 3600 := by
    rw [pay18, List.length_replicate]
  have hlen : (splitChunks pay18).length = 18 := by
    rw [splitChunks_length, hlen3600]
    decide
  have hkpos : 0 < (splitChunks pay18).length := by
    rw [hlen]
    decide
  have hk18 : (mkSession "s" pay18).k = 18 := by
    rw [mkSession_k, hlen3600]
    decide
  have hplan : planCount (splitChunks pay18).length = 27 := by
    rw [hlen]
    decide
  have hpf : packetsFor "s" pay18 =
      (List.range 27).map (encode (mkSession "s" pay18) (splitChunks pay18)) := by
    rw [packetsFor_eq, hplan]
  have hmasks : List.map pMask (packetsFor "s" pay18) =
      (List.range 27).map (fun pid => maskOf (packetIndices pid 18)) := by
    rw [hpf, map_pMask_encode, hlen]
  refine ⟨by rw [hlen3600]; decide, ?_⟩
  refine rank_deficient_incomplete (mkSession "s" pay18) (packetsFor "s" pay18)
    (packetsFor_valid "s" pay18 hkpos) ?_
  conv_lhs => rw [hmasks]
  conv_rhs => rw [hk18]
  decide

/-- C4: `serialize` produces a transport record carrying all seven
fields (`sessionId`, `packetId`, `k`, `totalBytes`, `checksum`,
`indices`, `data`) of the packet, and `deserialize` fails with
`MalformedPacket` exactly when the envelope structure is invalid, the
indices are empty or contain a value outside `[0, k)`, the data length
differs from the block size, or the declared `k`/`checksum` conflicts
with a previously seen value for the same session id. -/
theorem packetCodec_spec (p : Packet) (raw : RawPacket)
    (seen : List (String × Nat × Nat)) :
    ((serialize p).sessionId = some p.sessionId ∧
     (serialize p).packetId = some p.packetId ∧
     (serialize p).k = some p.k ∧
     (serialize p).totalBytes = some p.totalBytes ∧
     (serialize p).checksum = some p.checksum ∧
     (serialize p).indices = some p.indices ∧
     (serialize p).data = some p.data) ∧
    (deserialize raw seen = Except.error CoreError.malformedPacket ↔
      structureInvalid raw ∨ indicesInvalid raw ∨ dataInvalid raw ∨
        sessionConflict raw seen) := by
  refine ⟨⟨rfl, rfl, rfl, rfl, rfl, rfl, rfl⟩, ?_⟩
  obtain ⟨osid, opid, okk, otb, ocs, oidx, od⟩ := raw
  rcases osid with _ | sid
  · simp [deserialize, structureInvalid]
  rcases opid with _ | pid
  · simp [deserialize, structureInvalid]
  rcases okk with _ | k
  · simp [deserialize, structureInvalid]
  rcases otb with _ | tb
  · simp [deserialize, structureInvalid]
  rcases ocs with _ | cs
  · simp [deserialize, structureInvalid]
  rcases oidx with _ | idxs
  · simp [deserialize, structureInvalid]
  rcases od with _ | d
  · simp [deserialize, structureInvalid]
  have hstruct : ¬ structureInvalid
      ⟨some sid, some pid, some k, some tb, some cs, some idxs, some d⟩ := by
    simp [structureInvalid]
  rcases hkc : lookupSeen seen sid with _ | kc
  · simp only [deserialize, hkc]
    split_ifs with h1 h2 h3
    · simp only [true_iff, iff_true_intro rfl]
      exact Or.inr (Or.inl ⟨idxs, k, rfl, rfl, Or.inl (List.isEmpty_iff.mp h1)⟩)
    · simp only [true_iff, iff_true_intro rfl]
      obtain ⟨i, hi, hdec⟩ := List.any_eq_true.mp h2
      exact Or.inr (Or.inl ⟨idxs, k, rfl, rfl,
        Or.inr ⟨i, hi, of_decide_eq_true hdec⟩⟩)
    · simp only [true_iff, iff_true_intro rfl]
      exact Or.inr (Or.inr (Or.inl ⟨d, rfl, h3⟩))
    · constructor
      · intro hcontra
        exact absurd hcontra (by simp)
      · intro hdisj
        exfalso
        rcases hdisj with hS | hI | hD | hC
        · exact hstruct hS
        · obtain ⟨idxs', k', hi1, hi2, hcase⟩ := hI
          obtain rfl : idxs' = idxs := by
            injection hi1.symm
          obtain rfl : k' = k := by
            injection hi2.symm
          rcases hcase with hempty | ⟨i, hi, hk⟩
          · exact h1 (List.isEmpty_iff.mpr hempty)
          · exact h2 (List.any_eq_true.mpr ⟨i, hi, decide_eq_true hk⟩)
        · obtain ⟨d', hd1, hd2⟩ := hD
          obtain rfl : d' = d := by
            injection hd1.symm
          exact h3 hd2
        · obtain ⟨sid', k', cs', kc', e1, e2, e3, e4, _⟩ := hC
          obtain rfl : sid' = sid := by
            injection e1.symm
          rw [hkc] at e4
          exact Option.noConfusion e4
  · simp only [deserialize, hkc]
    split_ifs with h1 h2 h3 h4
    · simp only [true_iff, iff_true_intro rfl]
      exact Or.inr (Or.inl ⟨idxs, k, rfl, rfl, Or.inl (List.isEmpty_iff.mp h1)⟩)
    · simp only [true_iff, iff_true_intro rfl]
      obtain ⟨i, hi, hdec⟩ := List.any_eq_true.mp h2
      exact Or.inr (Or.inl ⟨idxs, k, rfl, rfl,
        Or.inr ⟨i, hi, of_decide_eq_true hdec⟩⟩)
    · simp only [true_iff, iff_true_intro rfl]
      exact Or.inr (Or.inr (Or.inl ⟨d, rfl, h3⟩))
    · simp only [true_iff, iff_true_intro rfl]
      exact Or.inr (Or.inr (Or.inr ⟨sid, k, cs, kc, rfl, rfl, rfl, hkc, h4⟩))
    · constructor
      · intro hcontra
        exact absurd hcontra (by simp)
      · intro hdisj
        exfalso
        rcases hdisj with hS | hI | hD | hC
        · exact hstruct hS
        · obtain ⟨idxs', k', hi1, hi2, hcase⟩ := hI
          obtain rfl : idxs' = idxs := by
            injection hi1.symm
          obtain rfl : k' = k := by
            injection hi2.symm
          rcases hcase with hempty | ⟨i, hi, hk⟩
          · exact h1 (List.isEmpty_iff.mpr hempty)
          · exact h2 (List.any_eq_true.mpr ⟨i, hi, decide_eq_true hk⟩)
        · obtain ⟨d', hd1, hd2⟩ := hD
          obtain rfl : d' = d := by
            injection hd1.symm
          exact h3 hd2
        · obtain ⟨sid', k', cs', kc', e1, e2, e3, e4, hcf⟩ := hC
          obtain rfl : sid' = sid := by
            injection e1.symm
          obtain rfl : k' = k := by
            injection e2.symm
          obtain rfl : cs' = cs := by
            injection e3.symm
          rw [hkc] at e4
          obtain rfl : kc' = kc := by
            injection e4 with h
            exact h.symm
          exact h4 hcf

end Maneuver

